import Mathlib

/-!
Verification development for the eSvitlo/ical outage-schedule service.

The repository contains two generations of each core module:
* `src/app/providers/__init__.py`, `src/app/providers/yasno.py`,
  `src/app/providers/dtek.py` — the current (quart/async) application;
* `src/providers/__init__.py`, `src/providers/yasno.py`,
  `src/providers/dtek.py` — the legacy (flask/sync) application.

Each Python module is shallowly embedded below in its own namespace:
`Yasno` (src/app/providers/yasno.py), `LegacyYasno` (src/providers/yasno.py),
`Dtek` (src/app/providers/dtek.py), `Pool` (the Browser worker pool of
src/app/providers/__init__.py), `LegacyPool` (src/providers/__init__.py).

`datetime` values are embedded as minutes since an arbitrary epoch (`Int`);
`date + timedelta(minutes=m)` is `date + m`, and `timedelta(hours=h)` is
`60*h`.  Optional `datetime` fields that default to `None` in pydantic
models are `Option Int`; applying `+` to a `None` date (a Python
`TypeError`) is modelled as an `Except.error .typeErr`.  JSON dictionaries
are embedded as insertion-ordered association lists, matching Python's
dict iteration order; `collections.defaultdict(list)` key creation on
read access is modelled explicitly (`ensureGroup`).
-/

namespace ESvitlo

/-- The fixed 12-member group enumeration (`Group` in
`src/app/providers/__init__.py` and `src/providers/__init__.py`). -/
inductive Group where
  | g1_1 | g1_2 | g2_1 | g2_2 | g3_1 | g3_2
  | g4_1 | g4_2 | g5_1 | g5_2 | g6_1 | g6_2
deriving DecidableEq, Repr

/-- `for group in Group` iteration order. -/
def Group.all : List Group :=
  [.g1_1, .g1_2, .g2_1, .g2_2, .g3_1, .g3_2,
   .g4_1, .g4_2, .g5_1, .g5_2, .g6_1, .g6_2]

/-- `Group(group_id)`: the `StrEnum` constructor; raises `ValueError`
(modelled as `none`) on a string outside the 12 member values. -/
def groupOfString : String → Option Group
  | "1.1" => some .g1_1
  | "1.2" => some .g1_2
  | "2.1" => some .g2_1
  | "2.2" => some .g2_2
  | "3.1" => some .g3_1
  | "3.2" => some .g3_2
  | "4.1" => some .g4_1
  | "4.2" => some .g4_2
  | "5.1" => some .g5_1
  | "5.2" => some .g5_2
  | "6.1" => some .g6_1
  | "6.2" => some .g6_2
  | _ => none

/-- Errors that abort a whole normalization call: `ValueError` from an
unrecognised group code, and `TypeError` from `None + timedelta` when a
slot with an unset reference date reaches a `dt_start`/`dt_end` access. -/
inductive NormErr where
  | unknownGroup
  | typeErr
deriving DecidableEq, Repr

namespace Yasno

/-- `SlotType` of src/app/providers/yasno.py. -/
inductive SlotType where
  | definite
  | notPlanned
deriving DecidableEq, Repr

/-- `DayStatus` of src/app/providers/yasno.py. -/
inductive DayStatus where
  | scheduleApplies
  | waitingForSchedule
  | emergencyShutdowns
deriving DecidableEq, Repr

/-- `DayName` of src/app/providers/yasno.py. -/
inductive DayName where
  | today | tomorrow
  | monday | tuesday | wednesday | thursday | friday | saturday | sunday
deriving DecidableEq, Repr

/-- `for day_name in DayName` iteration order: today, tomorrow, then the
week by weekday index. -/
def dayNameOrder : List DayName :=
  [.today, .tomorrow, .monday, .tuesday, .wednesday, .thursday, .friday,
   .saturday, .sunday]

/-- `Slot` (pydantic model) of src/app/providers/yasno.py.  `start`/`end`
are minute offsets; `type` defaults to `DEFINITE`; `date_start`,
`date_end` and `day_status` default to `None` and are filled in by
`Day.get_slots`. -/
structure Slot where
  start : Int
  «end» : Int
  type : SlotType := .definite
  date_start : Option Int := none
  date_end : Option Int := none
  day_status : Option DayStatus := none
deriving DecidableEq, Repr

/-- `Slot.dt_start`: `self.date_start + timedelta(minutes=self.start)`;
`none` when `date_start` is unset (Python would raise `TypeError`). -/
def Slot.dt_start? (s : Slot) : Option Int :=
  s.date_start.map (· + s.start)

/-- `Slot.dt_end`: `self.date_end + timedelta(minutes=self.end)`. -/
def Slot.dt_end? (s : Slot) : Option Int :=
  s.date_end.map (· + s.«end»)

/-- `Day` (pydantic model) of src/app/providers/yasno.py: `status` is
`DayStatus | None = None`. -/
structure Day where
  slots : List Slot
  date : Int
  status : Option DayStatus := none
deriving DecidableEq, Repr

/-- `Day.get_slots` (src/app/providers/yasno.py lines 88-108):
stamp each slot with the day's date and status (`SCHEDULE_APPLIES` and
`WAITING_FOR_SCHEDULE`), or replace the slot list by the single full-day
slot `start=0, end=1440` (`EMERGENCY_SHUTDOWNS`); then return only slots
whose type is `DEFINITE` and whose `day_status` is not
`WAITING_FOR_SCHEDULE`. -/
def Day.get_slots (d : Day) : List Slot :=
  let slots : List Slot :=
    match d.status with
    | some .scheduleApplies | some .waitingForSchedule =>
        d.slots.map fun s =>
          { s with date_start := some d.date, date_end := some d.date,
                   day_status := d.status }
    | some .emergencyShutdowns =>
        [{ start := 0, «end» := 1440, date_start := some d.date,
           date_end := some d.date, day_status := some .emergencyShutdowns }]
    | none => d.slots
  slots.filter fun s =>
    s.type == .definite && s.day_status != some .waitingForSchedule

/-- The merge guard of `YasnoBlackout.planned_outages` (lines 147-151):
`last_slot.dt_end == next_slot.dt_start and last_slot.type ==
next_slot.type and last_slot.day_status == next_slot.day_status`.
Computing `dt_end`/`dt_start` on a slot with an unset date raises
`TypeError`. -/
def mergeCond (last next : Slot) : Except NormErr Bool :=
  match last.dt_end?, next.dt_start? with
  | some le, some ns =>
      .ok (le == ns && last.type == next.type
           && last.day_status == next.day_status)
  | _, _ => .error .typeErr

/-- The joined slot of lines 152-158: built without an explicit `type`
(so it defaults to `DEFINITE`). -/
def joinedSlot (last next : Slot) : Slot :=
  { start := last.start, «end» := next.«end»,
    date_start := last.date_start, date_end := next.date_end,
    day_status := last.day_status }

/-- The body of lines 143-161 restricted to one group's list: given the
group's accumulated list `cur` and the day's `day_slots`, perform the
boundary merge check and return the group's new list
(`groups[...][:-1]` followed by `extend`). -/
def appendDaySlots (cur day_slots : List Slot) : Except NormErr (List Slot) :=
  match cur.getLast?, day_slots with
  | some last, next :: rest => do
      let m ← mergeCond last next
      if m then
        pure (cur.dropLast ++ (joinedSlot last next :: rest))
      else
        pure (cur ++ (next :: rest))
  | _, _ => pure (cur ++ day_slots)

/-- The accumulating `groups` mapping: an insertion-ordered association
list, as `dict(defaultdict(list))` preserves creation order. -/
abbrev Groups := List (Group × List Slot)

/-- Read `groups[g]` after the key exists. -/
def getGroup (gs : Groups) (g : Group) : List Slot :=
  match gs.lookup g with
  | some ws => ws
  | none => []

/-- `defaultdict` read access: looking up a missing key inserts `[]`. -/
def ensureGroup (gs : Groups) (g : Group) : Groups :=
  if (gs.lookup g).isSome then gs else gs ++ [(g, [])]

/-- `groups[g] = ws` for a key that is already present. -/
def setGroup (gs : Groups) (g : Group) (ws : List Slot) : Groups :=
  gs.map fun p => if p.1 = g then (g, ws) else p

/-- Processing of one present day for one group (lines 140-161): the
`groups[Group(group_id)]` accesses create the key, then the day's
resolved slots are appended with the boundary merge. -/
def processGroupDay (gs : Groups) (g : Group) (d : Day) :
    Except NormErr Groups := do
  let gs := ensureGroup gs g
  let ws ← appendDaySlots (getGroup gs g) d.get_slots
  pure (setGroup gs g ws)

/-- One step of the day loop of one `(group_id, day_data)` payload
entry: skip an absent day name, and convert the group code (raising on
an unknown code) once a day is present. -/
def entryStep (gid : String) (dm : List (DayName × Day))
    (gs : Groups) (dn : DayName) : Except NormErr Groups :=
  match dm.lookup dn with
  | none => pure gs
  | some day =>
      match groupOfString gid with
      | none => Except.error .unknownGroup
      | some g => processGroupDay gs g day

/-- Processing of one `(group_id, day_data)` payload entry: iterate the
`DayName` enumeration in order. -/
def processEntry (gs : Groups) (gid : String)
    (dm : List (DayName × Day)) : Except NormErr Groups :=
  dayNameOrder.foldlM (entryStep gid dm) gs

/-- `YasnoBlackout.planned_outages` (src/app/providers/yasno.py lines
136-163) as a function of the validated raw payload: a JSON object
keyed by group-code strings, each mapping recognised day names to `Day`
records.  Any raised exception aborts the whole call. -/
def planned_outages (payload : List (String × List (DayName × Day))) :
    Except NormErr Groups :=
  payload.foldlM (fun gs e => processEntry gs e.1 e.2) []

end Yasno

/-- Slots of one group, resolved day by day:
`ds.foldlM (processGroupDay · g ·) gs` — the effect of one payload entry
whose group code resolves to `g`, over its present days in `DayName`
order. -/
def Yasno.processDays (g : Group) (gs : Yasno.Groups) (ds : List Yasno.Day) :
    Except NormErr Yasno.Groups :=
  ds.foldlM (fun gs d => Yasno.processGroupDay gs g d) gs

/-- The present days of a day map, in `DayName` iteration order. -/
def Yasno.daysOf (dm : List (Yasno.DayName × Yasno.Day)) : List Yasno.Day :=
  Yasno.dayNameOrder.filterMap (dm.lookup ·)

/-- Replace the slot list of a `WAITING_FOR_SCHEDULE` day by `[]`,
leaving every other day untouched. -/
def Yasno.scrubDay (d : Yasno.Day) : Yasno.Day :=
  if d.status = some .waitingForSchedule then { d with slots := [] } else d

/-- Erase the slots of every waiting day across a payload. -/
def Yasno.scrubWaiting (payload : List (String × List (Yasno.DayName × Yasno.Day))) :
    List (String × List (Yasno.DayName × Yasno.Day)) :=
  payload.map fun e => (e.1, e.2.map fun p => (p.1, Yasno.scrubDay p.2))

/-- A slot whose reference dates have been resolved. -/
def Yasno.ResolvedSlot (w : Yasno.Slot) : Prop :=
  w.date_start.isSome ∧ w.date_end.isSome

/-- The absolute start instant of a resolved slot (0 when unresolved). -/
def Yasno.wStart (w : Yasno.Slot) : Int := w.dt_start?.getD 0

/-- The absolute end instant of a resolved slot (0 when unresolved). -/
def Yasno.wEnd (w : Yasno.Slot) : Int := w.dt_end?.getD 0

/-- A window list that is resolved and ordered: every earlier window
ends no later than every later window starts. -/
def Yasno.GoodOut (ws : List Yasno.Slot) : Prop :=
  (∀ w ∈ ws, Yasno.ResolvedSlot w) ∧
  ws.Pairwise (fun a b => Yasno.wEnd a ≤ Yasno.wStart b)

/-- A raw slot whose minute offsets lie inside its day. -/
def Yasno.WFSlot (s : Yasno.Slot) : Prop :=
  0 ≤ s.start ∧ s.start ≤ s.«end» ∧ s.«end» ≤ 1440

/-- A well-formed day: it carries a status, and a `SCHEDULE_APPLIES`
day's slot list is in-bounds and internally ordered. -/
def Yasno.WFDay (d : Yasno.Day) : Prop :=
  d.status.isSome ∧
  (d.status = some .scheduleApplies →
    (∀ s ∈ d.slots, Yasno.WFSlot s) ∧
    d.slots.Pairwise (fun a b => a.«end» ≤ b.start))

/-- A well-formed day map: present days are well-formed and, in
iteration order, their reference dates advance by at least one day. -/
def Yasno.WFDayMap (dm : List (Yasno.DayName × Yasno.Day)) : Prop :=
  (∀ d ∈ Yasno.daysOf dm, Yasno.WFDay d) ∧
  (Yasno.daysOf dm).Pairwise (fun d1 d2 => d1.date + 1440 ≤ d2.date)

/-- A well-formed payload: group codes are pairwise distinct (they are
keys of one JSON object) and every entry's day map is well-formed. -/
def Yasno.WFPayload (payload : List (String × List (Yasno.DayName × Yasno.Day))) : Prop :=
  payload.Pairwise (fun a b => a.1 ≠ b.1) ∧
  ∀ e ∈ payload, Yasno.WFDayMap e.2

/-- The canonical string of each group code. -/
def groupStr : Group → String
  | .g1_1 => "1.1"
  | .g1_2 => "1.2"
  | .g2_1 => "2.1"
  | .g2_2 => "2.2"
  | .g3_1 => "3.1"
  | .g3_2 => "3.2"
  | .g4_1 => "4.1"
  | .g4_2 => "4.2"
  | .g5_1 => "5.1"
  | .g5_2 => "5.2"
  | .g6_1 => "6.1"
  | .g6_2 => "6.2"

namespace LegacyYasno

/-- `Slot` (pydantic model) of src/providers/yasno.py: carries a `title`
defaulting to the planned-outage label, and no `day_status` field. -/
structure Slot where
  start : Int
  «end» : Int
  type : Yasno.SlotType := .definite
  title : String := "Відсутність світла"
  date_start : Option Int := none
  date_end : Option Int := none
deriving DecidableEq, Repr

/-- `Slot.dt_start` of src/providers/yasno.py. -/
def Slot.dt_start? (s : Slot) : Option Int :=
  s.date_start.map (· + s.start)

/-- `Slot.dt_end` of src/providers/yasno.py. -/
def Slot.dt_end? (s : Slot) : Option Int :=
  s.date_end.map (· + s.«end»)

/-- `Day` of src/providers/yasno.py. -/
structure Day where
  slots : List Slot
  date : Int
  status : Option Yasno.DayStatus := none
deriving DecidableEq, Repr

/-- `Day.update_dt` (src/providers/yasno.py lines 90-93): stamp every
slot with the day's reference date. -/
def Day.update_dt (d : Day) : Day :=
  { d with slots := d.slots.map fun s =>
      { s with date_start := some d.date, date_end := some d.date } }

/-- The legacy merge guard (src/providers/yasno.py line 123):
`last_slot.dt_end == next_slot.dt_start and last_slot.type ==
next_slot.type` — no comparison of titles or day statuses. -/
def mergeCond (last next : Slot) : Except NormErr Bool :=
  match last.dt_end?, next.dt_start? with
  | some le, some ns => .ok (le == ns && last.type == next.type)
  | _, _ => .error .typeErr

/-- The legacy joined slot (lines 124-130): keeps `last_slot.type` but
takes the default title. -/
def joinedSlot (last next : Slot) : Slot :=
  { start := last.start, «end» := next.«end», type := last.type,
    date_start := last.date_start, date_end := next.date_end }

abbrev Groups := List (Group × List Slot)

def getGroup (gs : Groups) (g : Group) : List Slot :=
  match gs.lookup g with
  | some ws => ws
  | none => []

def ensureGroup (gs : Groups) (g : Group) : Groups :=
  if (gs.lookup g).isSome then gs else gs ++ [(g, [])]

def setGroup (gs : Groups) (g : Group) (ws : List Slot) : Groups :=
  gs.map fun p => if p.1 = g then (g, ws) else p

/-- Lines 118-133: a `SCHEDULE_APPLIES` day's slots are appended with
the legacy boundary merge. -/
def appendDaySlots (cur day_slots : List Slot) :
    Except NormErr (List Slot) :=
  match cur.getLast?, day_slots with
  | some last, next :: rest => do
      let m ← mergeCond last next
      if m then
        pure (cur.dropLast ++ (joinedSlot last next :: rest))
      else
        pure (cur ++ (next :: rest))
  | _, _ => pure (cur ++ day_slots)

/-- Processing of one present day in the legacy normalizer
(src/providers/yasno.py lines 117-138).  `now` is the value of
`datetime.now(tz=day.date.tzinfo)` at the time of the call: an
`EMERGENCY_SHUTDOWNS` day contributes its full-day slot only when
`day.date < now`.  Days with `WAITING_FOR_SCHEDULE`, a missing status,
or a future emergency date contribute nothing and never touch the
`groups` mapping. -/
def processGroupDay (now : Int) (gs : Groups) (gid : String) (d₀ : Day) :
    Except NormErr Groups :=
  let d := d₀.update_dt
  match d.status with
  | some .scheduleApplies => do
      match groupOfString gid with
      | none => Except.error .unknownGroup
      | some g =>
          let gs := ensureGroup gs g
          let ws ← appendDaySlots (getGroup gs g) d.slots
          pure (setGroup gs g ws)
  | some .emergencyShutdowns =>
      if d.date < now then
        match groupOfString gid with
        | none => Except.error .unknownGroup
        | some g =>
            let gs := ensureGroup gs g
            let em : Slot :=
              { start := 0, «end» := 1440, title := "🚨 Екстрені відключення",
                date_start := some d.date, date_end := some d.date }
            pure (setGroup gs g (getGroup gs g ++ [em]))
      else
        pure gs
  | _ => pure gs

/-- `YasnoBlackout.planned_outages` of src/providers/yasno.py (lines
110-140). -/
def planned_outages (now : Int)
    (payload : List (String × List (Yasno.DayName × Day))) :
    Except NormErr Groups :=
  payload.foldlM
    (fun gs e =>
      Yasno.dayNameOrder.foldlM
        (fun gs dn =>
          match e.2.lookup dn with
          | none => pure gs
          | some day => processGroupDay now gs e.1 day)
        gs)
    []

end LegacyYasno

namespace Dtek

/-- `EventTitle` of src/app/providers/__init__.py. -/
inductive EventTitle where
  | scheduled
  | emergency
deriving DecidableEq, Repr

/-- `State` of src/app/providers/dtek.py: half-hour outage state codes
per hour. -/
inductive State where
  | no | yes | first | second
deriving DecidableEq, Repr

/-- `Slot` (dataclass) of src/app/providers/dtek.py: absolute instants,
title defaulting to the scheduled-outage label. -/
structure Slot where
  dt_start : Int
  dt_end : Int
  title : EventTitle := .scheduled
deriving DecidableEq, Repr

/-- `GROUP_MAP` of src/app/providers/dtek.py; a key outside the 12
`GPVn.m` codes raises `KeyError` (modelled as `none`). -/
def GROUP_MAP : String → Option Group
  | "GPV1.1" => some .g1_1
  | "GPV1.2" => some .g1_2
  | "GPV2.1" => some .g2_1
  | "GPV2.2" => some .g2_2
  | "GPV3.1" => some .g3_1
  | "GPV3.2" => some .g3_2
  | "GPV4.1" => some .g4_1
  | "GPV4.2" => some .g4_2
  | "GPV5.1" => some .g5_1
  | "GPV5.2" => some .g5_2
  | "GPV6.1" => some .g6_1
  | "GPV6.2" => some .g6_2
  | _ => none

/-- `DtekShutdownBase._parse_group` (src/app/providers/dtek.py lines
80-100): `dt` is the day-start instant, `data` maps hour numbers
(already parsed from their string keys) to states; hour `h` covers
minutes `60*(h-1)` to `60*h` of the day. -/
def _parse_group (dt : Int) (data : List (Int × State)) : List Slot :=
  data.filterMap fun p =>
    let hours := p.1 - 1
    match p.2 with
    | .no => some { dt_start := dt + 60 * hours, dt_end := dt + 60 * hours + 60 }
    | .first => some { dt_start := dt + 60 * hours, dt_end := dt + 60 * hours + 30 }
    | .second => some { dt_start := dt + 60 * hours + 30, dt_end := dt + 60 * hours + 60 }
    | .yes => none

/-- The loop body of `_join_slots`: `joined` is the accumulated list
(always nonempty in the source, seeded with `slots[0]`). -/
def joinLoop (joined : List Slot) : List Slot → List Slot
  | [] => joined
  | s :: rest =>
      match joined.getLast? with
      | some prev =>
          if s.dt_start == prev.dt_end then
            joinLoop (joined.dropLast ++
              [{ dt_start := prev.dt_start, dt_end := s.dt_end }]) rest
          else
            joinLoop (joined ++ [s]) rest
      | none => joinLoop [s] rest

/-- `DtekShutdownBase._join_slots` (src/app/providers/dtek.py lines
102-117): pairwise join of instant-adjacent slots, no classification
check. -/
def _join_slots : List Slot → List Slot
  | [] => []
  | s :: rest => joinLoop [s] rest

/-- The outcome of `DtekShutdownBase._get`: either the page showed the
emergency banner (the `EmergencyShutdown` exception) or it produced the
`DisconSchedule.fact` data object, keyed by day timestamps, then by
`GPVn.m` group codes, then by hour numbers. -/
inductive FetchResult where
  | emergency
  | data (d : List (Int × List (String × List (Int × State))))
deriving DecidableEq, Repr

/-- `slots.get(group, [])` on the plain dict. -/
def getSlots (acc : List (Group × List Slot)) (g : Group) : List Slot :=
  match acc.lookup g with
  | some ws => ws
  | none => []

/-- `slots[group] = ws`: update in place if present, else append. -/
def putSlots (acc : List (Group × List Slot)) (g : Group)
    (ws : List Slot) : List (Group × List Slot) :=
  if (acc.lookup g).isSome then
    acc.map fun p => if p.1 = g then (g, ws) else p
  else
    acc ++ [(g, ws)]

/-- The inner loop body over `(GPVn.m, hour-states)` pairs of one day's
data: unknown codes raise `KeyError`, otherwise the group's slots are
extended and re-joined. -/
def groupStep (ts : Int) (acc : List (Group × List Slot))
    (p : String × List (Int × State)) :
    Except NormErr (List (Group × List Slot)) :=
  match GROUP_MAP p.1 with
  | none => Except.error .unknownGroup
  | some g =>
      pure (putSlots acc g
        (_join_slots (getSlots acc g ++ _parse_group ts p.2)))

/-- The outer loop body over `(timestamp, groups)` pairs. -/
def dayStep (acc : List (Group × List Slot))
    (e : Int × List (String × List (Int × State))) :
    Except NormErr (List (Group × List Slot)) :=
  e.2.foldlM (groupStep e.1) acc

/-- `DtekShutdownBase.planned_outages` (src/app/providers/dtek.py lines
119-145).  `today` is the Kyiv-midnight instant of the current date: on
`EmergencyShutdown` every one of the 12 groups maps to the single
48-hour slot `today .. today + 2 days` with the emergency title;
otherwise the hour-state data is reduced to slots and joined, group by
group, failing on an unknown `GPV` code. -/
def planned_outages (today : Int) (fr : FetchResult) :
    Except NormErr (List (Group × List Slot)) :=
  match fr with
  | .emergency =>
      Except.ok (Group.all.map fun g =>
        (g, [{ dt_start := today, dt_end := today + 2880,
               title := .emergency }]))
  | .data d =>
      if d = [] then Except.ok []
      else d.foldlM dayStep []

end Dtek

namespace Pool

/-!
Sequential semantics of the `Browser` worker pool of
src/app/providers/__init__.py.  The pool is a single logical worker: all
jobs funnel through one FIFO queue and are processed strictly one at a
time under `self._browser_lock`, so its observable behaviour is captured
by a sequential trace over the queued jobs.  The idle-recycle timer
(`_restart` / `schedule_restart`) and external task cancellation are
real-time concurrent events outside this sequential model.

A playwright browser handle is modelled by its identity (a creation
counter standing for `createdAt`) and its `is_connected()` flag.  The
prescribed behaviour of one job's navigation/extraction is an oracle
(`JobSpec`): it either produces a value, raises an ordinary exception
(navigation `ConnectionError`, a missing-payload `ValueError`, ...), or
raises a `playwright` `Error` — the fatal case in which `_run` sets the
job's exception and breaks out of the worker loop, after which `run`
tears the resources down and restarts the loop.
-/

/-- A live automation handle: `id` is the creation counter (standing in
for `createdAt`), `connected` is `is_connected()`. -/
structure Handle where
  id : Nat
  connected : Bool
deriving DecidableEq, Repr

/-- Pool state: `Browser.__init__` fields relevant to the sequential
semantics.  `closed` records the ids of handles on which `close()` has
been called. -/
structure PoolState where
  maxRequests : Nat
  browser : Option Handle := none
  requests : Nat := 0
  nextId : Nat := 0
  closed : List Nat := []
deriving DecidableEq, Repr

/-- Python's `max_requests or 50`: `None` and `0` are falsy. -/
def orDefault (v : Option Nat) (d : Nat) : Nat :=
  match v with
  | none => d
  | some 0 => d
  | some (k + 1) => k + 1

/-- `Browser.__init__(max_inactivity=None, max_requests=None)`. -/
def initPool (max_requests : Option Nat := none) : PoolState :=
  { maxRequests := orDefault max_requests 50 }

/-- `Browser.browser` (src/app/providers/__init__.py lines 101-130): if a
handle exists but is disconnected or has served `max_requests` or more,
close it (errors suppressed) and clear it; if no handle remains, launch a
fresh one and reset the request counter.  Returns the handle to be used
by the current job together with the updated state. -/
def acquire (st : PoolState) : Handle × PoolState :=
  let st :=
    match st.browser with
    | some h =>
        if !h.connected || st.maxRequests ≤ st.requests then
          { st with browser := none, closed := st.closed ++ [h.id] }
        else st
    | none => st
  match st.browser with
  | some h => (h, st)
  | none =>
      let h : Handle := { id := st.nextId, connected := true }
      (h, { st with browser := some h, requests := 0,
                    nextId := st.nextId + 1 })

/-- The prescribed outcome of one job's navigation and action. -/
inductive JobSpec where
  | succeed (v : Nat)
  | failJob
  | failFatal
deriving DecidableEq, Repr

/-- The terminal outcome `_run` writes to the job's future: `ok` via
`job.result = ...`, `error` via `job.exception = ...` (both for ordinary
exceptions and for the fatal `PlaywrightError`). -/
def outcomeOf : JobSpec → Except Unit Nat
  | .succeed v => Except.ok v
  | .failJob => Except.error ()
  | .failFatal => Except.error ()

/-- Whether the job's failure is a `PlaywrightError`, which breaks the
worker loop. -/
def isFatal : JobSpec → Bool
  | .failFatal => true
  | _ => false

/-- `close()` of the current handle with errors suppressed and clearing
of `self._browser`, as performed by `run`'s `finally` block. -/
def closeBrowser (st : PoolState) : PoolState :=
  match st.browser with
  | some h => { st with browser := none, closed := st.closed ++ [h.id] }
  | none => st

/-- One iteration of the `_run` worker loop for a dequeued job (lines
166-199): acquire the handle under the lock, run the job, write exactly
one terminal outcome to its future, and in the `finally` block increment
`self._requests` whatever the outcome was. -/
def processOne (st : PoolState) (j : JobSpec) :
    (Nat × Except Unit Nat) × PoolState :=
  let a := acquire st
  ((a.1.id, outcomeOf j), { a.2 with requests := a.2.requests + 1 })

/-- The `run` supervisor driving `_run` over the queued jobs until the
queue is drained (lines 132-199): a fatal `PlaywrightError` breaks
`_run`, whereupon `run`'s `finally` closes the handle and the `while
True` loop restarts `_run` on the remaining jobs; when the queue is
empty and shut down the worker exits and the handle is closed.  Returns
the per-job `(servingHandleId, terminalOutcome)` trace and the final
state. -/
def runPool (st : PoolState) : List JobSpec →
    List (Nat × Except Unit Nat) × PoolState
  | [] => ([], closeBrowser st)
  | j :: rest =>
      let r := processOne st j
      let stNext := if isFatal j then closeBrowser r.2 else r.2
      let rs := runPool stNext rest
      (r.1 :: rs.1, rs.2)

/-- The pool together with its submission queue, for the shutdown
semantics of `execute`/`shutdown` (lines 201-208). -/
structure SysState where
  pool : PoolState
  queue : List JobSpec := []
  qShutdown : Bool := false
deriving DecidableEq, Repr

/-- `Browser.execute`'s enqueue step: `put_nowait` raises
`QueueShutDown` once the queue was shut down, so the submission fails
fast instead of hanging. -/
def submit (st : SysState) (j : JobSpec) : Except Unit SysState :=
  if st.qShutdown then Except.error ()
  else Except.ok { st with queue := st.queue ++ [j] }

/-- `Browser.shutdown`: `self._task_queue.shutdown()` closes the queue
for new submissions, the worker drains every already-enqueued job (each
receives its terminal outcome), `join()` returns once the drain is
complete, and the worker's exit path closes the browser handle.
Returns the post-shutdown system state and the drained jobs' trace. -/
def shutdown (st : SysState) : SysState × List (Nat × Except Unit Nat) :=
  let (served, pst) := runPool st.pool st.queue
  ({ pool := pst, queue := [], qShutdown := true }, served)

end Pool

namespace LegacyPool

/-!
Sequential semantics of the legacy `Browser.run` worker loop of
src/providers/__init__.py (lines 102-135).  Unlike the current pool,
that loop has no supervisor: a `CancelledError` or `PlaywrightError`
raised by `page.goto` hits the bare `except ... : break` on line 121,
which leaves the current job's future unset and exits the loop, so the
current caller and every caller still queued await futures that are
never resolved.
-/

/-- The prescribed outcome of one legacy job: succeed, raise an ordinary
exception (caught and delivered via `future.set_exception`), or have
`page.goto` raise `CancelledError`/`PlaywrightError` (the bare `break`
path). -/
inductive JobSpec where
  | succeed (v : Nat)
  | failJob
  | navBreak
deriving DecidableEq, Repr

/-- The legacy worker loop: the returned list is the state of each
queued job's future when `run` returns — `none` means the future was
never given a result or an exception. -/
def run : List JobSpec → List (Option (Except Unit Nat))
  | [] => []
  | j :: rest =>
      match j with
      | .succeed v => some (Except.ok v) :: run rest
      | .failJob => some (Except.error ()) :: run rest
      | .navBreak => none :: rest.map (fun _ => none)

end LegacyPool

/-! ### Generic lemmas about `Except`-valued folds -/

theorem except_bind_ok {e α β : Type} {x : Except e α} {g : α → Except e β}
    {r : β} (h : x >>= g = .ok r) : ∃ a, x = .ok a ∧ g a = .ok r := by
  cases x with
  | error er => exact absurd h (by simp [Bind.bind, Except.bind])
  | ok a => exact ⟨a, rfl, by simpa [Bind.bind, Except.bind] using h⟩

theorem foldlM_ok_invariant {α β e : Type} (P : β → Prop)
    (f : β → α → Except e β)
    (hf : ∀ b a b', P b → f b a = .ok b' → P b') :
    ∀ (l : List α) (b r : β), P b → l.foldlM f b = .ok r → P r := by
  intro l
  induction l with
  | nil =>
      intro b r hb h
      simp only [List.foldlM_nil, Except.pure, pure] at h
      cases h
      exact hb
  | cons a t ih =>
      intro b r hb h
      rw [List.foldlM_cons] at h
      obtain ⟨b', hb', ht⟩ := except_bind_ok h
      exact ih b' r (hf b a b' hb hb') ht

theorem foldlM_error_of_mem {α β e : Type} (f : β → α → Except e β) (a : α)
    (ha : ∀ b, ∃ er, f b a = .error er) :
    ∀ (l : List α) (b : β), a ∈ l → ∃ er, l.foldlM f b = .error er := by
  intro l
  induction l with
  | nil => intro b hmem; cases hmem
  | cons x t ih =>
      intro b hmem
      rw [List.foldlM_cons]
      rcases List.mem_cons.mp hmem with hx | hmem'
      · subst hx
        obtain ⟨er, her⟩ := ha b
        exact ⟨er, by simp [her, Bind.bind, Except.bind]⟩
      · cases hfx : f b x with
        | error er => exact ⟨er, by simp [hfx, Bind.bind, Except.bind]⟩
        | ok b' =>
            obtain ⟨er, her⟩ := ih b' hmem'
            exact ⟨er, by simp [hfx, Bind.bind, Except.bind, her]⟩

theorem foldlM_ok_of_mem {α β e : Type} (f : β → α → Except e β) (a : α)
    (Q : β → Prop)
    (hstep : ∀ b b', f b a = .ok b' → Q b')
    (hmono : ∀ b a' b', Q b → f b a' = .ok b' → Q b') :
    ∀ (l : List α) (b r : β), a ∈ l → l.foldlM f b = .ok r → Q r := by
  intro l
  induction l with
  | nil => intro b r hmem; cases hmem
  | cons x t ih =>
      intro b r hmem h
      rw [List.foldlM_cons] at h
      obtain ⟨b', hb', ht⟩ := except_bind_ok h
      rcases List.mem_cons.mp hmem with hx | hmem'
      · subst hx
        exact foldlM_ok_invariant Q f hmono t b' r (hstep b b' hb') ht
      · exact ih b' r hmem' ht

/-! ### C1 — adjacency merge -/

/-- C1 (counterexample): two 30-minute slots at clock times 10:00-10:30
and 10:30-11:00 on two adjacent days (reference dates 0 and 1440) with
equal classification do NOT merge: their boundary instants are
`0 + 630 = 630` and `1440 + 630 = 2070`, so the output keeps two
windows — not the single window 10:00-11:00 that the claim's
"in particular" sentence asserts. -/
theorem C1_counterexample :
    Yasno.planned_outages
      [("1.1",
        [(.today, { slots := [{ start := 600, «end» := 630 }], date := 0,
                    status := some .scheduleApplies }),
         (.tomorrow, { slots := [{ start := 630, «end» := 660 }], date := 1440,
                       status := some .scheduleApplies })])] =
      .ok [(.g1_1,
        [{ start := 600, «end» := 630, date_start := some 0, date_end := some 0,
           day_status := some .scheduleApplies },
         { start := 630, «end» := 660, date_start := some 1440, date_end := some 1440,
           day_status := some .scheduleApplies }])] := by
  rfl

/-- C1 (amended): when a day's resolved slots are appended to a group's
accumulated window list and both are non-empty, if the last accumulated
window's end instant equals the first new slot's start instant and the
two share the same slot type and day status, the two are replaced by
the single window spanning the last window's start to the new slot's
end; otherwise the new slots are appended unchanged.  (The merge fires
on equal absolute instants, e.g. 23:30-24:00 of one day followed by
00:00-00:30 of the next; same-clock-time slots on different days do not
touch.) -/
theorem C1_adjacency_merge_amended :
    ∀ (cur : List Yasno.Slot) (last next : Yasno.Slot)
      (rest : List Yasno.Slot) (le ns : Int),
      cur.getLast? = some last →
      last.dt_end? = some le → next.dt_start? = some ns →
      Yasno.appendDaySlots cur (next :: rest) = .ok
        (if le = ns ∧ last.type = next.type ∧ last.day_status = next.day_status
         then cur.dropLast ++ (Yasno.joinedSlot last next :: rest)
         else cur ++ (next :: rest)) := by
  intro cur last next rest le ns hl he hs
  unfold Yasno.appendDaySlots
  rw [hl]
  simp only [Yasno.mergeCond, he, hs]
  by_cases hc : le = ns ∧ last.type = next.type ∧ last.day_status = next.day_status
  · obtain ⟨h1, h2, h3⟩ := hc
    simp [h1, h2, h3, Bind.bind, Except.bind, pure, Except.pure]
  · rw [if_neg hc]
    have : (le == ns && last.type == next.type && last.day_status == next.day_status) = false := by
      by_contra hne
      have := eq_true_of_ne_false hne
      simp only [Bool.and_eq_true, beq_iff_eq] at this
      exact hc ⟨this.1.1, this.1.2, this.2⟩
    simp [this, Bind.bind, Except.bind, pure, Except.pure]

/-- C1 (witness): the slot 23:30-24:00 of day 0 and the slot 00:00-00:30
of day 1 share the boundary instant 1440 and their classification, so
they merge into the single window 23:30 .. 00:30. -/
theorem C1_adjacency_merge_amended_witness :
    Yasno.appendDaySlots
      [{ start := 1410, «end» := 1440, date_start := some 0, date_end := some 0,
         day_status := some .scheduleApplies }]
      [{ start := 0, «end» := 30, date_start := some 1440, date_end := some 1440,
         day_status := some .scheduleApplies }] =
      .ok [{ start := 1410, «end» := 30, date_start := some 0, date_end := some 1440,
             day_status := some .scheduleApplies }] := by
  have := C1_adjacency_merge_amended
    [{ start := 1410, «end» := 1440, date_start := some 0, date_end := some 0,
       day_status := some .scheduleApplies }]
    { start := 1410, «end» := 1440, date_start := some 0, date_end := some 0,
      day_status := some .scheduleApplies }
    { start := 0, «end» := 30, date_start := some 1440, date_end := some 1440,
      day_status := some .scheduleApplies }
    [] 1440 1440 rfl rfl rfl
  simpa [Yasno.joinedSlot] using this

/-! ### C2 — emergency override -/

/-- C2 (counterexample): an `EMERGENCY_SHUTDOWNS` day supplied under
group "1.1" only (with another window already accumulated for the same
reference date) yields the full-day emergency window for group 1.1
alone — no other group receives a window — and the emergency window is
appended after the previously accumulated window for the same date
rather than replacing it. -/
theorem C2_counterexample :
    Yasno.planned_outages
      [("1.1",
        [(.today, { slots := [{ start := 600, «end» := 630 }], date := 0,
                    status := some .scheduleApplies }),
         (.monday, { slots := [{ start := 100, «end» := 130 }], date := 0,
                     status := some .emergencyShutdowns })])] =
      .ok [(.g1_1,
        [{ start := 600, «end» := 630, date_start := some 0, date_end := some 0,
           day_status := some .scheduleApplies },
         { start := 0, «end» := 1440, date_start := some 0, date_end := some 0,
           day_status := some .emergencyShutdowns }])] := by
  rfl

/-- C2 (amended): in the Yasno normalizer an `EMERGENCY_SHUTDOWNS` day
record resolves to exactly one window spanning the entire day (minutes
0..1440 of its reference date) regardless of any slots supplied for
that day, contributed only to the group the day appears under and
appended through the ordinary accumulation (no replacement); in the
scrape-based DTEK provider, detecting the emergency banner yields a
fixed 48-hour window from the start of the current day for every one of
the 12 groups, discarding all other data. -/
theorem C2_emergency_amended :
    (∀ (slots : List Yasno.Slot) (date : Int),
        Yasno.Day.get_slots { slots := slots, date := date,
                              status := some .emergencyShutdowns } =
          [{ start := 0, «end» := 1440, date_start := some date,
             date_end := some date,
             day_status := some .emergencyShutdowns }]) ∧
    (∀ today : Int,
        Dtek.planned_outages today .emergency =
          .ok (Group.all.map fun g =>
            (g, [{ dt_start := today, dt_end := today + 2880,
                   title := .emergency }]))) := by
  exact ⟨fun _ _ => rfl, fun _ => rfl⟩

/-! ### C4 — exactly one terminal outcome per job -/

/-- Every dequeued job's future receives exactly the terminal outcome
prescribed by its navigation/action behaviour, across fatal restarts. -/
theorem aux_runPool_outcomes :
    ∀ (st : Pool.PoolState) (jobs : List Pool.JobSpec),
      ((Pool.runPool st jobs).1.map Prod.snd) = jobs.map Pool.outcomeOf := by
  intro st jobs
  induction jobs generalizing st with
  | nil => rfl
  | cons j t ih => simp [Pool.runPool, Pool.processOne, ih]

/-- C4 (counterexample): in the legacy pool of
src/providers/__init__.py, a job whose `page.goto` raises a
`PlaywrightError` hits the bare `break` (line 121): its future is never
set, the loop exits, and every job still queued behind it is dropped —
callers await channels that are left forever unset. -/
theorem C4_counterexample :
    LegacyPool.run [.succeed 5, .navBreak, .succeed 7] =
      [some (.ok 5), none, none] := by
  rfl

/-- C4 (amended): in the current pool (src/app/providers/__init__.py),
for every queue of jobs, the worker loop together with its supervisor
writes exactly one terminal outcome — the success value or the raised
error, including the fatal automation-layer error that breaks the
worker loop — to each dequeued job's future; the trace has one entry
per job, so no caller awaits a channel left forever unset.  (In the
legacy pool of src/providers/__init__.py a navigation
`PlaywrightError` leaves the current and all queued futures unset.) -/
theorem C4_terminal_outcome_amended :
    ∀ (st : Pool.PoolState) (jobs : List Pool.JobSpec),
      ((Pool.runPool st jobs).1.map Prod.snd) = jobs.map Pool.outcomeOf ∧
      ((Pool.runPool st jobs).1.length = jobs.length) := by
  intro st jobs
  refine ⟨aux_runPool_outcomes st jobs, ?_⟩
  have := congrArg List.length (aux_runPool_outcomes st jobs)
  simpa using this

/-! ### C3 — unknown group rejection -/

/-- C3 (counterexample): a payload containing the unknown group code
"zzz" with an empty day map normalizes successfully and returns the
mapping for the valid group "1.1" — the whole call does not fail, and
the unknown group is silently dropped. -/
theorem C3_counterexample :
    Yasno.planned_outages
      [("1.1",
        [(.today, { slots := [{ start := 600, «end» := 630 }], date := 0,
                    status := some .scheduleApplies })]),
       ("zzz", [])] =
      .ok [(.g1_1,
        [{ start := 600, «end» := 630, date_start := some 0, date_end := some 0,
           day_status := some .scheduleApplies }])] := by
  rfl

/-! ### C10 — empty list versus missing key -/

/-- C10 (counterexample): the group code "1.1" appears in the payload
(with no recognized day names), yet it is absent from the result — so
it is not true that only groups entirely absent from the payload are
absent from the result. -/
theorem C10_counterexample :
    Yasno.planned_outages [("1.1", [])] = .ok [] := by
  rfl

/-! ### C8 — emergency windows and the merge -/

/-- C8 (counterexample): in the legacy normalizer
(src/providers/yasno.py), whose merge guard compares only instants and
slot types, an emergency day (full-day window, emergency title) is
merged with the adjacent schedule day's first slot into one window
spanning both — the output window covers instants 0 .. 1470 and even
carries the default (non-emergency) title. -/
theorem C8_counterexample :
    LegacyYasno.planned_outages 1
      [("1.1",
        [(.today, { slots := [], date := 0,
                    status := some .emergencyShutdowns }),
         (.tomorrow, { slots := [{ start := 0, «end» := 30 }], date := 1440,
                       status := some .scheduleApplies })])] =
      .ok [(.g1_1,
        [{ start := 0, «end» := 30, title := "Відсутність світла",
           date_start := some 0, date_end := some 1440 }])] := by
  rfl

/-- Case analysis of the boundary-merge step: the group's new list is
either the plain append, or (when the merge guard evaluated to `true`)
the accumulated list with its last window replaced by the joined
window. -/
theorem aux_appendDaySlots_cases {cur ds out : List Yasno.Slot}
    (h : Yasno.appendDaySlots cur ds = .ok out) :
    out = cur ++ ds ∨
    ∃ last next rest,
      cur.getLast? = some last ∧ ds = next :: rest ∧
      Yasno.mergeCond last next = .ok true ∧
      out = cur.dropLast ++ (Yasno.joinedSlot last next :: rest) := by
  unfold Yasno.appendDaySlots at h
  split at h
  · rename_i last next rest heq
    obtain ⟨b, hm, hb⟩ := except_bind_ok h
    cases b with
    | true =>
        rw [if_pos rfl] at hb
        have hb2 : Except.ok (cur.dropLast ++ (Yasno.joinedSlot last next :: rest)) =
            Except.ok out := hb
        injection hb2 with hb3
        exact Or.inr ⟨last, next, rest, heq, rfl, hm, hb3.symm⟩
    | false =>
        rw [if_neg (by simp)] at hb
        have hb2 : Except.ok (cur ++ (next :: rest)) = Except.ok out := hb
        injection hb2 with hb3
        exact Or.inl hb3.symm
  · injection h with h3
    exact Or.inl h3.symm

/-- A merge guard that evaluated to `true` had equal slot types and
equal day statuses. -/
theorem aux_mergeCond_true {last next : Yasno.Slot}
    (h : Yasno.mergeCond last next = .ok true) :
    last.type = next.type ∧ last.day_status = next.day_status := by
  unfold Yasno.mergeCond at h
  split at h
  · injection h with hb
    simp only [Bool.and_eq_true, beq_iff_eq] at hb
    exact ⟨hb.1.2, hb.2⟩
  · cases h

/-- C8 (amended): in the current normalizer
(src/app/providers/yasno.py) the adjacency merge never combines windows
whose day statuses differ: whenever `appendDaySlots` produces anything
other than the plain append, the merged pair had equal `day_status` and
the joined window inherits it.  (The legacy normalizer of
src/providers/yasno.py omits the status comparison and can merge an
emergency window with a schedule window.) -/
theorem C8_no_cross_status_merge_amended :
    ∀ (cur ds out : List Yasno.Slot),
      Yasno.appendDaySlots cur ds = .ok out →
      out = cur ++ ds ∨
      ∃ last next rest,
        cur.getLast? = some last ∧ ds = next :: rest ∧
        last.day_status = next.day_status ∧
        (Yasno.joinedSlot last next).day_status = last.day_status ∧
        out = cur.dropLast ++ (Yasno.joinedSlot last next :: rest) := by
  intro cur ds out h
  rcases aux_appendDaySlots_cases h with hap | ⟨last, next, rest, hl, hds, hm, hout⟩
  · exact Or.inl hap
  · exact Or.inr ⟨last, next, rest, hl, hds, (aux_mergeCond_true hm).2, rfl, hout⟩

/-- C8 (witness): a concrete invocation of the amended characterization
on a merging pair of equal-status windows. -/
theorem C8_no_cross_status_merge_amended_witness :
    ([({ start := 1410, «end» := 30, date_start := some 0, date_end := some 1440,
         day_status := some .scheduleApplies } : Yasno.Slot)] =
      [{ start := 1410, «end» := 1440, date_start := some 0, date_end := some 0,
         day_status := some .scheduleApplies }] ++
        [{ start := 0, «end» := 30, date_start := some 1440, date_end := some 1440,
           day_status := some .scheduleApplies }]) ∨
    ∃ last next rest,
      ([({ start := 1410, «end» := 1440, date_start := some 0, date_end := some 0,
           day_status := some .scheduleApplies } : Yasno.Slot)]).getLast? = some last ∧
      ([({ start := 0, «end» := 30, date_start := some 1440, date_end := some 1440,
           day_status := some .scheduleApplies } : Yasno.Slot)]) = next :: rest ∧
      last.day_status = next.day_status ∧
      (Yasno.joinedSlot last next).day_status = last.day_status ∧
      ([({ start := 1410, «end» := 30, date_start := some 0, date_end := some 1440,
           day_status := some .scheduleApplies } : Yasno.Slot)]) =
        ([({ start := 1410, «end» := 1440, date_start := some 0, date_end := some 0,
             day_status := some .scheduleApplies } : Yasno.Slot)]).dropLast ++
          (Yasno.joinedSlot last next :: rest) :=
  C8_no_cross_status_merge_amended _ _ _ (by rfl)

/-! ### C5 — recycle-by-count policy -/

theorem aux_isFatal_false {j : Pool.JobSpec} (h : j ≠ .failFatal) :
    Pool.isFatal j = false := by
  cases j <;> simp [Pool.isFatal] at h ⊢

theorem aux_orDefault_pos {mr d : Nat} (h : 1 ≤ mr) :
    Pool.orDefault (some mr) d = mr := by
  cases mr with
  | zero => omega
  | succ k => rfl

theorem aux_acquire_none {st : Pool.PoolState} (hb : st.browser = none) :
    Pool.acquire st = (⟨st.nextId, true⟩,
      { st with browser := some ⟨st.nextId, true⟩, requests := 0,
                nextId := st.nextId + 1 }) := by
  simp [Pool.acquire, hb]

theorem aux_acquire_keep {st : Pool.PoolState} {h : Pool.Handle}
    (hb : st.browser = some h) (hc : h.connected = true)
    (hlt : st.requests < st.maxRequests) :
    Pool.acquire st = (h, st) := by
  have : (!h.connected || decide (st.maxRequests ≤ st.requests)) = false := by
    simp [hc, Nat.not_le.mpr hlt]
  simp [Pool.acquire, hb, this]

theorem aux_acquire_recycle {st : Pool.PoolState} {h : Pool.Handle}
    (hb : st.browser = some h)
    (hcond : h.connected = false ∨ st.maxRequests ≤ st.requests) :
    Pool.acquire st = (⟨st.nextId, true⟩,
      { st with browser := some ⟨st.nextId, true⟩, requests := 0,
                nextId := st.nextId + 1, closed := st.closed ++ [h.id] }) := by
  have : (!h.connected || decide (st.maxRequests ≤ st.requests)) = true := by
    rcases hcond with hc | hc
    · simp [hc]
    · simp [hc]
  simp [Pool.acquire, hb, this]

/-- From the steady state (handle id 0 alive and connected, `k` jobs
served so far, next id 1), a run of non-fatal jobs is served by handle 0
until the request counter reaches `maxRequests`, and the next job is
served by the freshly launched handle 1. -/
theorem aux_runPool_count (mr : Nat) :
    ∀ (jobs : List Pool.JobSpec) (k : Nat) (c : List Nat),
      (∀ j ∈ jobs, j ≠ .failFatal) →
      jobs.length + k = mr + 1 → 1 ≤ k → k ≤ mr →
      ((Pool.runPool
          { maxRequests := mr, browser := some ⟨0, true⟩,
            requests := k, nextId := 1, closed := c } jobs).1.map Prod.fst) =
        List.replicate (mr - k) 0 ++ [1] := by
  intro jobs
  induction jobs with
  | nil =>
      intro k c _ hlen _ hk
      simp at hlen
      omega
  | cons j t ih =>
      intro k c hnf hlen h1 hk
      have hf : Pool.isFatal j = false := aux_isFatal_false (hnf j (by simp))
      by_cases hkm : k = mr
      · subst hkm
        have ht0 : t.length = 0 := by simp at hlen; omega
        have ht : t = [] := List.eq_nil_of_length_eq_zero ht0
        subst ht
        have hacq := @aux_acquire_recycle
          { maxRequests := k, browser := some ⟨0, true⟩,
            requests := k, nextId := 1, closed := c }
          ⟨0, true⟩ rfl (Or.inr le_rfl)
        simp [Pool.runPool, Pool.processOne, hacq, hf]
      · have hklt : k < mr := lt_of_le_of_ne hk hkm
        have hacq := @aux_acquire_keep
          { maxRequests := mr, browser := some ⟨0, true⟩,
            requests := k, nextId := 1, closed := c }
          ⟨0, true⟩ rfl rfl hklt
        have hstep := ih (k + 1) c (fun j' hj' => hnf j' (by simp [hj']))
          (by simp at hlen ⊢; omega) (by omega) (by omega)
        have hrw : mr - k = (mr - (k + 1)) + 1 := by omega
        simp only [Pool.runPool, Pool.processOne, hacq, hf, if_neg,
          Bool.false_eq_true, not_false_eq_true, List.map_cons]
        rw [hstep, hrw, List.replicate_succ]
        rfl

/-- C5: before each job acquires the handle — if no handle exists, or
the handle reports disconnected, or `requests` has reached
`maxRequests` — the pool closes the existing handle and launches a
fresh one (new creation id, counter reset to 0); otherwise the same
handle is returned with the state unchanged.  `requests` is incremented
after every processed job regardless of outcome, so starting from an
empty pool with `maxRequests = mr`, `mr + 1` non-fatal jobs are served
by handle 0 for the first `mr` jobs and by the fresh handle 1 for the
next one. -/
theorem C5_recycle_policy :
    (∀ st : Pool.PoolState,
        (st.browser = none ∨ ∃ h, st.browser = some h ∧
          (h.connected = false ∨ st.maxRequests ≤ st.requests)) →
        (Pool.acquire st).1 = ⟨st.nextId, true⟩ ∧
        (Pool.acquire st).2.browser = some ⟨st.nextId, true⟩ ∧
        (Pool.acquire st).2.requests = 0 ∧
        (∀ h, st.browser = some h → h.id ∈ (Pool.acquire st).2.closed)) ∧
    (∀ (st : Pool.PoolState) (h : Pool.Handle),
        st.browser = some h → h.connected = true →
        st.requests < st.maxRequests → Pool.acquire st = (h, st)) ∧
    (∀ (st : Pool.PoolState) (j : Pool.JobSpec),
        (Pool.processOne st j).2.requests = (Pool.acquire st).2.requests + 1) ∧
    (∀ (mr : Nat) (jobs : List Pool.JobSpec),
        1 ≤ mr → jobs.length = mr + 1 → (∀ j ∈ jobs, j ≠ .failFatal) →
        ((Pool.runPool (Pool.initPool (some mr)) jobs).1.map Prod.fst) =
          List.replicate mr 0 ++ [1]) := by
  refine ⟨?_, ?_, ?_, ?_⟩
  · intro st hrec
    rcases hrec with hb | ⟨h, hb, hcond⟩
    · rw [aux_acquire_none hb]
      exact ⟨rfl, rfl, rfl, fun h' hh' => by rw [hb] at hh'; cases hh'⟩
    · have hcond' : h.connected = false ∨ st.maxRequests ≤ st.requests := hcond
      rw [aux_acquire_recycle hb hcond']
      refine ⟨rfl, rfl, rfl, fun h' hh' => ?_⟩
      rw [hb] at hh'
      cases hh'
      simp
  · intro st h hb hc hlt
    exact aux_acquire_keep hb hc hlt
  · intro st j
    simp [Pool.processOne]
  · intro mr jobs h1 hlen hnf
    cases jobs with
    | nil => simp at hlen
    | cons j t =>
        have hf : Pool.isFatal j = false := aux_isFatal_false (hnf j (by simp))
        have hmr : Pool.orDefault (some mr) 50 = mr := aux_orDefault_pos h1
        have hacq := @aux_acquire_none (Pool.initPool (some mr)) rfl
        have hstep := aux_runPool_count mr t 1 []
          (fun j' hj' => hnf j' (by simp [hj']))
          (by simp at hlen; omega) (by omega) (by omega)
        simp only [Pool.runPool, Pool.processOne, hacq, hf, if_neg,
          Bool.false_eq_true, not_false_eq_true, List.map_cons]
        simp only [Pool.initPool, hmr] at hstep ⊢
        rw [hstep]
        cases mr with
        | zero => omega
        | succ k =>
            rw [List.replicate_succ]
            simp

/-- C5 (witness): concrete instantiations — a disconnected handle is
recycled; a healthy under-budget handle is reused; the counter
increments; and with `maxRequests = 2`, three successful jobs are
served by handles 0, 0, 1. -/
theorem C5_recycle_policy_witness :
    ((Pool.acquire { maxRequests := 2, browser := some ⟨7, false⟩,
                     requests := 0, nextId := 3, closed := [] }).1 = ⟨3, true⟩ ∧
      (Pool.acquire { maxRequests := 2, browser := some ⟨7, false⟩,
                      requests := 0, nextId := 3, closed := [] }).2.browser =
        some ⟨3, true⟩ ∧
      (Pool.acquire { maxRequests := 2, browser := some ⟨7, false⟩,
                      requests := 0, nextId := 3, closed := [] }).2.requests = 0 ∧
      (∀ h, (some (⟨7, false⟩ : Pool.Handle) = some h) →
        h.id ∈ (Pool.acquire { maxRequests := 2, browser := some ⟨7, false⟩,
                               requests := 0, nextId := 3,
                               closed := [] }).2.closed)) ∧
    (Pool.acquire { maxRequests := 2, browser := some ⟨7, true⟩,
                    requests := 1, nextId := 3, closed := [] } =
      (⟨7, true⟩, { maxRequests := 2, browser := some ⟨7, true⟩,
                    requests := 1, nextId := 3, closed := [] })) ∧
    ((Pool.runPool (Pool.initPool (some 2))
        [.succeed 1, .succeed 2, .succeed 3]).1.map Prod.fst =
      List.replicate 2 0 ++ [1]) :=
  ⟨C5_recycle_policy.1 _ (Or.inr ⟨⟨7, false⟩, rfl, Or.inl rfl⟩),
   C5_recycle_policy.2.1 _ _ rfl rfl (by decide),
   C5_recycle_policy.2.2.2 2 _ (by omega) (by rfl)
     (by intro j hj; fin_cases hj <;> simp)⟩

/-! ### C9 — shutdown semantics -/

theorem aux_runPool_browser_none :
    ∀ (st : Pool.PoolState) (jobs : List Pool.JobSpec),
      ((Pool.runPool st jobs).2).browser = none := by
  intro st jobs
  induction jobs generalizing st with
  | nil =>
      cases hb : st.browser <;> simp [Pool.runPool, Pool.closeBrowser, hb]
  | cons j t ih => simp [Pool.runPool, ih]

theorem aux_closeBrowser_of_none {st : Pool.PoolState}
    (h : st.browser = none) : Pool.closeBrowser st = st := by
  simp [Pool.closeBrowser, h]

/-- C9: once the queue is shut down, every subsequent submission fails
fast with `QueueShutDown` rather than hanging; every job enqueued
before the shutdown is drained and receives its terminal outcome (none
dropped); after the drain the browser handle is released; and a second
`shutdown` call leaves the state unchanged and does not fail. -/
theorem C9_shutdown_semantics :
    (∀ (st : Pool.SysState) (j : Pool.JobSpec),
        st.qShutdown = true → Pool.submit st j = .error ()) ∧
    (∀ st : Pool.SysState,
        ((Pool.shutdown st).2).map Prod.snd = st.queue.map Pool.outcomeOf) ∧
    (∀ st : Pool.SysState, (Pool.shutdown st).1.pool.browser = none) ∧
    (∀ st : Pool.SysState,
        Pool.shutdown (Pool.shutdown st).1 = ((Pool.shutdown st).1, [])) := by
  refine ⟨?_, ?_, ?_, ?_⟩
  · intro st j h
    simp [Pool.submit, h]
  · intro st
    simp [Pool.shutdown, aux_runPool_outcomes]
  · intro st
    simp [Pool.shutdown, aux_runPool_browser_none]
  · intro st
    have hb : ((Pool.runPool st.pool st.queue).2).browser = none :=
      aux_runPool_browser_none st.pool st.queue
    simp [Pool.shutdown, Pool.runPool, aux_closeBrowser_of_none hb]

/-- C9 (witness): a submission after shutdown fails fast on a concrete
state. -/
theorem C9_shutdown_semantics_witness :
    Pool.submit { pool := Pool.initPool none, queue := [], qShutdown := true }
      (.succeed 0) = .error () :=
  C9_shutdown_semantics.1 _ _ rfl

theorem aux_mem_dayNameOrder (dn : Yasno.DayName) :
    dn ∈ Yasno.dayNameOrder := by
  cases dn <;> simp [Yasno.dayNameOrder]

/-- C3 (amended): an unknown group code fails the whole Yasno
normalization call whenever it is accompanied by at least one
recognized day name, and an unknown `GPV` code anywhere in the DTEK
hour-state data fails that whole call; the `Except` result then carries
no partial mapping.  (An unknown Yasno group whose day map contains no
recognized day name is skipped without error, per the
counterexample.) -/
theorem C3_unknown_group_amended :
    (∀ (payload : List (String × List (Yasno.DayName × Yasno.Day)))
        (gid : String) (dm : List (Yasno.DayName × Yasno.Day)),
        (gid, dm) ∈ payload → groupOfString gid = none →
        (∃ dn d, dm.lookup dn = some d) →
        ∃ er, Yasno.planned_outages payload = .error er) ∧
    (∀ (today : Int)
        (d : List (Int × List (String × List (Int × Dtek.State))))
        (ts : Int) (gm : List (String × List (Int × Dtek.State)))
        (gstr : String) (hs : List (Int × Dtek.State)),
        (ts, gm) ∈ d → (gstr, hs) ∈ gm → Dtek.GROUP_MAP gstr = none →
        ∃ er, Dtek.planned_outages today (.data d) = .error er) := by
  constructor
  · intro payload gid dm hmem hgid ⟨dn, dday, hdn⟩
    have hstep2 : ∀ gs' : Yasno.Groups,
        ∃ er, Yasno.entryStep gid dm gs' dn = .error er :=
      fun gs' => ⟨.unknownGroup, by simp only [Yasno.entryStep, hdn, hgid]⟩
    have hstep : ∀ gs : Yasno.Groups,
        ∃ er, Yasno.processEntry gs gid dm = .error er :=
      fun gs => foldlM_error_of_mem _ dn hstep2 Yasno.dayNameOrder gs
        (aux_mem_dayNameOrder dn)
    exact foldlM_error_of_mem _ (gid, dm) hstep payload [] hmem
  · intro today d ts gm gstr hs hmem hgm hgstr
    have hne : ¬(d = []) := by
      intro h
      rw [h] at hmem
      cases hmem
    have hstep2 : ∀ acc' : List (Group × List Dtek.Slot),
        ∃ er, Dtek.groupStep ts acc' (gstr, hs) = .error er :=
      fun acc' => ⟨.unknownGroup, by simp only [Dtek.groupStep, hgstr]⟩
    have hstep : ∀ acc : List (Group × List Dtek.Slot),
        ∃ er, Dtek.dayStep acc (ts, gm) = .error er :=
      fun acc => foldlM_error_of_mem _ (gstr, hs) hstep2 gm acc hgm
    obtain ⟨er, her⟩ :=
      foldlM_error_of_mem Dtek.dayStep (ts, gm) hstep d [] hmem
    refine ⟨er, ?_⟩
    show (if d = [] then Except.ok [] else d.foldlM Dtek.dayStep []) =
      Except.error er
    rw [if_neg hne]
    exact her

/-- C3 (witness): a payload whose unknown group code "zzz" comes with a
recognized day name fails the whole call. -/
theorem C3_unknown_group_amended_witness :
    ∃ er, Yasno.planned_outages
      [("zzz", [(.today, { slots := [], date := 0,
                           status := some .scheduleApplies })])] = .error er :=
  C3_unknown_group_amended.1 _ "zzz"
    [(.today, { slots := [], date := 0, status := some .scheduleApplies })]
    (by simp) rfl ⟨.today, _, rfl⟩

/-! ### C6 — waiting days -/

theorem aux_foldlM_congr {α β e : Type} (f g : β → α → Except e β) :
    ∀ (l : List α) (b : β), (∀ b' a, a ∈ l → f b' a = g b' a) →
      l.foldlM f b = l.foldlM g b := by
  intro l
  induction l with
  | nil => intro b _; rfl
  | cons x t ih =>
      intro b h
      rw [List.foldlM_cons, List.foldlM_cons, h b x (by simp)]
      cases g b x with
      | error er => simp [Bind.bind, Except.bind]
      | ok b' =>
          simp only [Bind.bind, Except.bind]
          exact ih b' fun b'' a ha => h b'' a (by simp [ha])

theorem aux_lookup_map_value {κ ν : Type} [BEq κ]
    (f : ν → ν) (a : κ) :
    ∀ l : List (κ × ν),
      (l.map fun p => (p.1, f p.2)).lookup a = (l.lookup a).map f := by
  intro l
  induction l with
  | nil => rfl
  | cons p t ih =>
      simp only [List.map_cons, List.lookup]
      cases h : a == p.1 <;> simp [h, ih]

theorem aux_lookup_mem {κ ν : Type} [BEq κ] [LawfulBEq κ] {a : κ} {b : ν} :
    ∀ {l : List (κ × ν)}, l.lookup a = some b → (a, b) ∈ l := by
  intro l
  induction l with
  | nil => intro h; cases h
  | cons p t ih =>
      intro h
      simp only [List.lookup] at h
      cases hk : a == p.1 with
      | true =>
          rw [hk] at h
          cases h
          have : a = p.1 := eq_of_beq hk
          subst this
          simp
      | false =>
          rw [hk] at h
          exact List.mem_cons_of_mem _ (ih h)

theorem aux_getLast?_mem {α : Type} {l : List α} {a : α}
    (h : l.getLast? = some a) : a ∈ l := by
  have hd := List.dropLast_append_getLast? a (by rw [h]; rfl)
  rw [← hd]
  simp

theorem aux_filter_waiting_nil (date : Int) (stt : Option Yasno.DayStatus)
    (hstt : stt = some .waitingForSchedule) :
    ∀ slots : List Yasno.Slot,
      ((slots.map fun s =>
          { s with date_start := some date, date_end := some date,
                   day_status := stt }).filter fun s =>
        s.type == .definite && s.day_status != some .waitingForSchedule) = [] := by
  intro slots
  induction slots with
  | nil => rfl
  | cons s t ih => simp [hstt, ih, List.filter]

theorem aux_get_slots_scrub (d : Yasno.Day) :
    (Yasno.scrubDay d).get_slots = d.get_slots := by
  obtain ⟨slots, date, status⟩ := d
  unfold Yasno.scrubDay
  cases status with
  | none => rw [if_neg (by simp)]
  | some stt =>
      cases stt with
      | scheduleApplies => rw [if_neg (by simp)]
      | emergencyShutdowns => rw [if_neg (by simp)]
      | waitingForSchedule =>
          rw [if_pos rfl]
          exact (aux_filter_waiting_nil date (some .waitingForSchedule) rfl
            slots).symm

theorem aux_processGroupDay_scrub (gs : Yasno.Groups) (g : Group)
    (d : Yasno.Day) :
    Yasno.processGroupDay gs g (Yasno.scrubDay d) =
      Yasno.processGroupDay gs g d := by
  unfold Yasno.processGroupDay
  rw [aux_get_slots_scrub]

theorem aux_entryStep_scrub (gid : String)
    (dm : List (Yasno.DayName × Yasno.Day)) (gs : Yasno.Groups)
    (dn : Yasno.DayName) :
    Yasno.entryStep gid (dm.map fun p => (p.1, Yasno.scrubDay p.2)) gs dn =
      Yasno.entryStep gid dm gs dn := by
  unfold Yasno.entryStep
  rw [aux_lookup_map_value]
  cases dm.lookup dn with
  | none => rfl
  | some day =>
      simp only [Option.map]
      cases groupOfString gid with
      | none => rfl
      | some g => exact aux_processGroupDay_scrub gs g day

theorem aux_get_slots_noWaiting (d : Yasno.Day) :
    ∀ w ∈ d.get_slots, w.day_status ≠ some .waitingForSchedule := by
  intro w hw
  unfold Yasno.Day.get_slots at hw
  have := List.of_mem_filter hw
  simp only [Bool.and_eq_true, bne_iff_ne] at this
  exact this.2

theorem aux_appendDaySlots_mem {cur ds out : List Yasno.Slot}
    (h : Yasno.appendDaySlots cur ds = .ok out) :
    ∀ w ∈ out, w ∈ cur ∨ w ∈ ds ∨
      ∃ last next rest, cur.getLast? = some last ∧ ds = next :: rest ∧
        w = Yasno.joinedSlot last next := by
  intro w hw
  rcases aux_appendDaySlots_cases h with hap | ⟨last, next, rest, hl, hds, _, hout⟩
  · rw [hap] at hw
    rcases List.mem_append.mp hw with h1 | h2
    · exact Or.inl h1
    · exact Or.inr (Or.inl h2)
  · rw [hout] at hw
    rcases List.mem_append.mp hw with h1 | h2
    · exact Or.inl (List.dropLast_subset cur h1)
    · rcases List.mem_cons.mp h2 with h3 | h4
      · exact Or.inr (Or.inr ⟨last, next, rest, hl, hds, h3⟩)
      · exact Or.inr (Or.inl (by rw [hds]; exact List.mem_cons_of_mem _ h4))

theorem aux_mem_ensureGroup {gs : Yasno.Groups} {g : Group}
    {p : Group × List Yasno.Slot} (hp : p ∈ Yasno.ensureGroup gs g) :
    p ∈ gs ∨ p = (g, []) := by
  unfold Yasno.ensureGroup at hp
  by_cases hl : (gs.lookup g).isSome
  · rw [if_pos hl] at hp
    exact Or.inl hp
  · rw [if_neg hl] at hp
    rcases List.mem_append.mp hp with h1 | h2
    · exact Or.inl h1
    · simp at h2
      exact Or.inr h2

theorem aux_mem_setGroup {gs : Yasno.Groups} {g : Group}
    {ws : List Yasno.Slot} {p : Group × List Yasno.Slot}
    (hp : p ∈ Yasno.setGroup gs g ws) :
    p ∈ gs ∨ p = (g, ws) := by
  unfold Yasno.setGroup at hp
  obtain ⟨q, hq, hpq⟩ := List.mem_map.mp hp
  by_cases hqg : q.1 = g
  · rw [if_pos hqg] at hpq
    exact Or.inr hpq.symm
  · rw [if_neg hqg] at hpq
    exact Or.inl (hpq ▸ hq)

theorem aux_getGroup_prop (P : Yasno.Slot → Prop) {gs : Yasno.Groups}
    (hP : ∀ p ∈ gs, ∀ w ∈ p.2, P w) (g : Group) :
    ∀ w ∈ Yasno.getGroup gs g, P w := by
  intro w hw
  unfold Yasno.getGroup at hw
  cases hl : gs.lookup g with
  | none => rw [hl] at hw; cases hw
  | some ws =>
      rw [hl] at hw
      exact hP (g, ws) (aux_lookup_mem hl) w hw

theorem aux_processGroupDay_noWaiting {gs gs' : Yasno.Groups} {g : Group}
    {d : Yasno.Day}
    (hP : ∀ p ∈ gs, ∀ w ∈ p.2, w.day_status ≠ some .waitingForSchedule)
    (h : Yasno.processGroupDay gs g d = .ok gs') :
    ∀ p ∈ gs', ∀ w ∈ p.2, w.day_status ≠ some .waitingForSchedule := by
  unfold Yasno.processGroupDay at h
  obtain ⟨ws, hws, hset⟩ := except_bind_ok h
  have hgs' : gs' = Yasno.setGroup (Yasno.ensureGroup gs g) g ws := by
    cases hset
    rfl
  have hP1 : ∀ p ∈ Yasno.ensureGroup gs g, ∀ w ∈ p.2,
      w.day_status ≠ some .waitingForSchedule := by
    intro p hp
    rcases aux_mem_ensureGroup hp with h1 | h2
    · exact hP p h1
    · intro w hw
      rw [h2] at hw
      cases hw
  have hcur : ∀ w ∈ Yasno.getGroup (Yasno.ensureGroup gs g) g,
      w.day_status ≠ some .waitingForSchedule :=
    aux_getGroup_prop _ hP1 g
  have hws' : ∀ w ∈ ws, w.day_status ≠ some .waitingForSchedule := by
    intro w hw
    rcases aux_appendDaySlots_mem hws w hw with h1 | h2 | ⟨last, next, rest, hl, _, hj⟩
    · exact hcur w h1
    · exact aux_get_slots_noWaiting d w h2
    · rw [hj]
      show last.day_status ≠ some .waitingForSchedule
      exact hcur last (aux_getLast?_mem hl)
  intro p hp
  rw [hgs'] at hp
  rcases aux_mem_setGroup hp with h1 | h2
  · exact hP1 p h1
  · intro w hw
    rw [h2] at hw
    exact hws' w hw

/-- C6 (counterexample): with a confirmed day ending at instant 1440, a
`WAITING_FOR_SCHEDULE` day whose slot spans instants 1440..1450, and a
following confirmed day starting at instant 1440, the code merges the
two confirmed days' slots directly into one window — the waiting day's
resolved instants take no part in the adjacency comparison (under the
claim's reading, the comparison against the waiting slot, ending at
1450, would have prevented this merge), and the output is identical
when the waiting day's slots are removed. -/
theorem C6_counterexample :
    Yasno.planned_outages
      [("1.1",
        [(.today, { slots := [{ start := 1380, «end» := 1440 }], date := 0,
                    status := some .scheduleApplies }),
         (.tomorrow, { slots := [{ start := 0, «end» := 10 }], date := 1440,
                       status := some .waitingForSchedule }),
         (.monday, { slots := [{ start := 0, «end» := 60 }], date := 1440,
                     status := some .scheduleApplies })])] =
      .ok [(.g1_1,
        [{ start := 1380, «end» := 60, date_start := some 0,
           date_end := some 1440, day_status := some .scheduleApplies }])] ∧
    Yasno.planned_outages
      [("1.1",
        [(.today, { slots := [{ start := 1380, «end» := 1440 }], date := 0,
                    status := some .scheduleApplies }),
         (.tomorrow, { slots := [], date := 1440,
                       status := some .waitingForSchedule }),
         (.monday, { slots := [{ start := 0, «end» := 60 }], date := 1440,
                     status := some .scheduleApplies })])] =
      .ok [(.g1_1,
        [{ start := 1380, «end» := 60, date_start := some 0,
           date_end := some 1440, day_status := some .scheduleApplies }])] :=
  ⟨rfl, rfl⟩

/-- C6 (amended): slots of `WAITING_FOR_SCHEDULE` days never appear in
the normalizer's output — their instants are resolved inside
`get_slots` but they are filtered out before the merge step, so the
adjacency comparison never uses them: the output is invariant under
replacing every waiting day's slot list (adjacency is evaluated
directly between the surrounding confirmed days' slots). -/
theorem C6_waiting_amended :
    (∀ (payload : List (String × List (Yasno.DayName × Yasno.Day)))
        (m : Yasno.Groups),
        Yasno.planned_outages payload = .ok m →
        ∀ p ∈ m, ∀ w ∈ p.2, w.day_status ≠ some .waitingForSchedule) ∧
    (∀ payload : List (String × List (Yasno.DayName × Yasno.Day)),
        Yasno.planned_outages (Yasno.scrubWaiting payload) =
          Yasno.planned_outages payload) := by
  constructor
  · intro payload m hok
    unfold Yasno.planned_outages at hok
    refine foldlM_ok_invariant
      (fun gs => ∀ p ∈ gs, ∀ w ∈ p.2,
        w.day_status ≠ some .waitingForSchedule)
      (fun gs e => Yasno.processEntry gs e.1 e.2) ?_ payload [] m
      (fun p hp => absurd hp (List.not_mem_nil p)) hok
    intro gs e gs' hgs hstep
    unfold Yasno.processEntry at hstep
    refine foldlM_ok_invariant
      (fun gs => ∀ p ∈ gs, ∀ w ∈ p.2,
        w.day_status ≠ some .waitingForSchedule)
      (Yasno.entryStep e.1 e.2) ?_ Yasno.dayNameOrder gs gs' hgs hstep
    intro b dn b' hb hb'
    revert hb'
    unfold Yasno.entryStep
    cases hdn : e.2.lookup dn with
    | none =>
        intro hb'
        cases hb'
        exact hb
    | some day =>
        cases hg : groupOfString e.1 with
        | none => intro hb'; cases hb'
        | some g =>
            intro hb'
            exact aux_processGroupDay_noWaiting hb hb'
  · intro payload
    unfold Yasno.planned_outages Yasno.scrubWaiting
    rw [List.foldlM_map]
    apply aux_foldlM_congr
    intro gs e _
    show Yasno.processEntry gs e.1 (e.2.map fun p => (p.1, Yasno.scrubDay p.2)) =
      Yasno.processEntry gs e.1 e.2
    unfold Yasno.processEntry
    apply aux_foldlM_congr
    intro gs' dn _
    exact aux_entryStep_scrub e.1 e.2 gs' dn

/-- C6 (witness): the single window of a concrete successful run is not
a waiting window. -/
theorem C6_waiting_amended_witness :
    ({ start := 600, «end» := 630, date_start := some 0, date_end := some 0,
       day_status := some .scheduleApplies } : Yasno.Slot).day_status ≠
      some Yasno.DayStatus.waitingForSchedule :=
  C6_waiting_amended.1
    [("1.1", [(.today, { slots := [{ start := 600, «end» := 630 }], date := 0,
                         status := some .scheduleApplies })])]
    [(.g1_1, [{ start := 600, «end» := 630, date_start := some 0,
                date_end := some 0,
                day_status := some .scheduleApplies }])] rfl
    (.g1_1, [{ start := 600, «end» := 630, date_start := some 0,
               date_end := some 0, day_status := some .scheduleApplies }])
    (by simp)
    { start := 600, «end» := 630, date_start := some 0, date_end := some 0,
      day_status := some .scheduleApplies }
    (by simp)

/-! ### C10 — key presence in the Yasno result -/

theorem aux_foldlM_ok_invariant_mem {α β e : Type} (P : β → Prop)
    (f : β → α → Except e β) :
    ∀ (l : List α), (∀ b a b', a ∈ l → P b → f b a = .ok b' → P b') →
      ∀ (b r : β), P b → l.foldlM f b = .ok r → P r := by
  intro l
  induction l with
  | nil =>
      intro _ b r hb h
      simp only [List.foldlM_nil, Except.pure, pure] at h
      cases h
      exact hb
  | cons a t ih =>
      intro hf b r hb h
      rw [List.foldlM_cons] at h
      obtain ⟨b', hb', ht⟩ := except_bind_ok h
      exact ih (fun b₀ a₀ b₀' ha₀ => hf b₀ a₀ b₀' (by simp [ha₀]))
        b' r (hf b a b' (by simp) hb hb') ht

theorem aux_lookup_append {κ ν : Type} [BEq κ] (a : κ) :
    ∀ l₁ l₂ : List (κ × ν),
      (l₁ ++ l₂).lookup a =
        match l₁.lookup a with
        | some b => some b
        | none => l₂.lookup a := by
  intro l₁ l₂
  induction l₁ with
  | nil => rfl
  | cons p t ih =>
      simp only [List.cons_append, List.lookup]
      cases h : a == p.1 <;> simp [h, ih]

theorem aux_lookup_isSome_ensure (gs : Yasno.Groups) (g g' : Group) :
    ((Yasno.ensureGroup gs g).lookup g').isSome ↔
      (gs.lookup g').isSome ∨ g' = g := by
  unfold Yasno.ensureGroup
  by_cases hp : (gs.lookup g).isSome
  · rw [if_pos hp]
    constructor
    · exact Or.inl
    · rintro (h | rfl)
      · exact h
      · exact hp
  · rw [if_neg hp, aux_lookup_append]
    cases hl : gs.lookup g' with
    | some ws => simp
    | none =>
        simp only [Option.isSome_none, Bool.false_eq_true, false_or]
        show (List.lookup g' [(g, [])]).isSome ↔ g' = g
        cases hg : g' == g with
        | true => simp [List.lookup, hg, eq_of_beq hg]
        | false =>
            simp [List.lookup, hg]
            intro hcontr
            rw [hcontr] at hg
            simp at hg

theorem aux_lookup_isSome_set (g g' : Group) (ws : List Yasno.Slot) :
    ∀ gs : Yasno.Groups,
      ((Yasno.setGroup gs g ws).lookup g').isSome = (gs.lookup g').isSome := by
  intro gs
  induction gs with
  | nil => rfl
  | cons p t ih =>
      show (((if p.1 = g then (g, ws) else p) ::
        Yasno.setGroup t g ws).lookup g').isSome = ((p :: t).lookup g').isSome
      by_cases hpg : p.1 = g
      · subst hpg
        rw [if_pos rfl]
        simp only [List.lookup]
        cases h : g' == p.1 <;> simp [h, ih]
      · rw [if_neg hpg]
        simp only [List.lookup]
        cases h : g' == p.1 <;> simp [h, ih]

theorem aux_processGroupDay_keys {gs gs' : Yasno.Groups} {g : Group}
    {d : Yasno.Day} (h : Yasno.processGroupDay gs g d = .ok gs') (g' : Group) :
    ((gs'.lookup g').isSome ↔ (gs.lookup g').isSome ∨ g' = g) := by
  unfold Yasno.processGroupDay at h
  obtain ⟨ws, _, hset⟩ := except_bind_ok h
  have hgs' : gs' = Yasno.setGroup (Yasno.ensureGroup gs g) g ws := by
    cases hset
    rfl
  rw [hgs', aux_lookup_isSome_set, aux_lookup_isSome_ensure]

theorem aux_entryStep_keys {gid : String}
    {dm : List (Yasno.DayName × Yasno.Day)} {gs gs' : Yasno.Groups}
    {dn : Yasno.DayName}
    (h : Yasno.entryStep gid dm gs dn = .ok gs') (g' : Group) :
    ((gs'.lookup g').isSome →
      (gs.lookup g').isSome ∨
        (groupOfString gid = some g' ∧ ∃ d, dm.lookup dn = some d)) ∧
    ((gs.lookup g').isSome → (gs'.lookup g').isSome) := by
  revert h
  unfold Yasno.entryStep
  cases hdn : dm.lookup dn with
  | none =>
      intro h
      cases h
      exact ⟨Or.inl, id⟩
  | some day =>
      cases hg : groupOfString gid with
      | none => intro h; cases h
      | some g =>
          intro h
          have hiff := aux_processGroupDay_keys h g'
          constructor
          · intro hs
            rcases hiff.mp hs with h1 | rfl
            · exact Or.inl h1
            · exact Or.inr ⟨rfl, day, rfl⟩
          · intro hs
            exact hiff.mpr (Or.inl hs)

theorem aux_processEntry_mono {gid : String}
    {dm : List (Yasno.DayName × Yasno.Day)} {gs gs' : Yasno.Groups}
    {g : Group} (h : Yasno.processEntry gs gid dm = .ok gs')
    (hs : (gs.lookup g).isSome) : (gs'.lookup g).isSome := by
  unfold Yasno.processEntry at h
  exact foldlM_ok_invariant (fun b => (b.lookup g).isSome)
    (Yasno.entryStep gid dm)
    (fun b dn b' hb hb' => (aux_entryStep_keys hb' g).2 hb)
    Yasno.dayNameOrder gs gs' hs h

theorem aux_processEntry_keys {gid : String}
    {dm : List (Yasno.DayName × Yasno.Day)} {gs gs' : Yasno.Groups}
    (h : Yasno.processEntry gs gid dm = .ok gs') (g' : Group)
    (hs : (gs'.lookup g').isSome) :
    (gs.lookup g').isSome ∨
      (groupOfString gid = some g' ∧ ∃ dn d, dm.lookup dn = some d) := by
  unfold Yasno.processEntry at h
  refine foldlM_ok_invariant
    (fun b => (b.lookup g').isSome →
      (gs.lookup g').isSome ∨
        (groupOfString gid = some g' ∧ ∃ dn d, dm.lookup dn = some d))
    (Yasno.entryStep gid dm) ?_ Yasno.dayNameOrder gs gs' (fun hb => Or.inl hb)
    h hs
  intro b dn b' hb hb' hs'
  rcases (aux_entryStep_keys hb' g').1 hs' with h1 | ⟨hg, d, hd⟩
  · exact hb h1
  · exact Or.inr ⟨hg, dn, d, hd⟩

theorem aux_processEntry_creates {gid : String}
    {dm : List (Yasno.DayName × Yasno.Day)} {gs gs' : Yasno.Groups}
    {g : Group} {dn : Yasno.DayName} {d : Yasno.Day}
    (hg : groupOfString gid = some g) (hd : dm.lookup dn = some d)
    (h : Yasno.processEntry gs gid dm = .ok gs') :
    (gs'.lookup g).isSome := by
  unfold Yasno.processEntry at h
  refine foldlM_ok_of_mem (Yasno.entryStep gid dm) dn
    (fun b => (b.lookup g).isSome) ?_
    (fun b dn' b' hb hb' => (aux_entryStep_keys hb' g).2 hb)
    Yasno.dayNameOrder gs gs' (aux_mem_dayNameOrder dn) h
  intro b b' hb'
  revert hb'
  unfold Yasno.entryStep
  rw [hd, hg]
  intro hb'
  exact (aux_processGroupDay_keys hb' g).mpr (Or.inr rfl)

/-- C10 (amended): in the mapping returned by a successful run of the
Yasno normalizer, a group is present as a key — possibly bound to the
empty list — exactly when it appears in the payload under its group
code together with at least one recognized day name; a group present in
the payload with no recognized day name is absent from the result, just
like a group absent from the payload. -/
theorem C10_group_keys_amended :
    ∀ (payload : List (String × List (Yasno.DayName × Yasno.Day)))
      (m : Yasno.Groups) (g : Group),
      Yasno.planned_outages payload = .ok m →
      ((m.lookup g).isSome ↔
        ∃ gid dm, (gid, dm) ∈ payload ∧ groupOfString gid = some g ∧
          ∃ dn d, dm.lookup dn = some d) := by
  intro payload m g hok
  unfold Yasno.planned_outages at hok
  constructor
  · intro hs
    refine aux_foldlM_ok_invariant_mem
      (fun b => (b.lookup g).isSome →
        ∃ gid dm, (gid, dm) ∈ payload ∧ groupOfString gid = some g ∧
          ∃ dn d, dm.lookup dn = some d)
      (fun gs e => Yasno.processEntry gs e.1 e.2) payload ?_ [] m
      (fun hcontr => by simp at hcontr) hok hs
    intro b e b' hmem hb hb' hs'
    rcases aux_processEntry_keys hb' g hs' with h1 | ⟨hg, dn, d, hd⟩
    · exact hb h1
    · exact ⟨e.1, e.2, by cases e; exact hmem, hg, dn, d, hd⟩
  · rintro ⟨gid, dm, hmem, hg, dn, d, hd⟩
    exact foldlM_ok_of_mem (fun gs e => Yasno.processEntry gs e.1 e.2)
      (gid, dm) (fun b => (b.lookup g).isSome)
      (fun b b' hb' => aux_processEntry_creates hg hd hb')
      (fun b e b' hb hb' => aux_processEntry_mono hb' hb)
      payload [] m hmem hok

/-- C10 (witness): a group whose only day is `WAITING_FOR_SCHEDULE`
contributes no window yet is present as a key bound to the empty
list. -/
theorem C10_group_keys_amended_witness :
    (([((Group.g1_1 : Group), ([] : List Yasno.Slot))].lookup Group.g1_1).isSome ↔
      ∃ gid dm,
        (gid, dm) ∈
          [("1.1", [((Yasno.DayName.today : Yasno.DayName),
            ({ slots := [{ start := 0, «end» := 10 }], date := 0,
               status := some .waitingForSchedule } : Yasno.Day))])] ∧
        groupOfString gid = some Group.g1_1 ∧
        ∃ dn d, dm.lookup dn = some d) :=
  C10_group_keys_amended
    [("1.1", [(.today, { slots := [{ start := 0, «end» := 10 }], date := 0,
                         status := some .waitingForSchedule })])]
    [(.g1_1, [])] Group.g1_1 rfl

/-! ### C7 — ordering of the output -/

/-- C7 (counterexample): two touching slots inside one
`SCHEDULE_APPLIES` day are never merged (the merge is checked only at
day boundaries), so the output contains consecutive windows with
`window[0].end == window[1].start` — strict inequality fails. -/
theorem C7_counterexample :
    Yasno.planned_outages
      [("1.1",
        [(.today, { slots := [{ start := 0, «end» := 30 },
                              { start := 30, «end» := 60 }], date := 0,
                    status := some .scheduleApplies })])] =
      .ok [(.g1_1,
        [{ start := 0, «end» := 30, date_start := some 0, date_end := some 0,
           day_status := some .scheduleApplies },
         { start := 30, «end» := 60, date_start := some 0, date_end := some 0,
           day_status := some .scheduleApplies }])] ∧
    Yasno.wEnd { start := 0, «end» := 30, date_start := some 0,
                 date_end := some 0, day_status := some .scheduleApplies } =
      Yasno.wStart { start := 30, «end» := 60, date_start := some 0,
                     date_end := some 0, day_status := some .scheduleApplies } :=
  ⟨rfl, rfl⟩

theorem aux_groupOfString_eq {s : String} {g : Group}
    (h : groupOfString s = some g) : s = groupStr g := by
  unfold groupOfString at h
  split at h <;> first
    | (injection h with h2; subst h2; rfl)
    | cases h

theorem aux_groupOfString_inj {s t : String} {g : Group}
    (hs : groupOfString s = some g) (ht : groupOfString t = some g) :
    s = t := by
  rw [aux_groupOfString_eq hs, aux_groupOfString_eq ht]

theorem aux_lookup_isSome_iff_mem_keys {κ ν : Type} [BEq κ] [LawfulBEq κ]
    (a : κ) : ∀ l : List (κ × ν),
      (l.lookup a).isSome ↔ a ∈ l.map Prod.fst := by
  intro l
  induction l with
  | nil => simp [List.lookup]
  | cons p t ih =>
      simp only [List.lookup, List.map_cons, List.mem_cons]
      cases h : a == p.1 with
      | true => simp [eq_of_beq h]
      | false =>
          have : ¬(a = p.1) := by
            intro hcontr
            rw [hcontr] at h
            simp at h
          simp [this, ih]

theorem aux_lookup_set_self {gs : Yasno.Groups} {g : Group}
    (ws : List Yasno.Slot) (hp : (gs.lookup g).isSome) :
    (Yasno.setGroup gs g ws).lookup g = some ws := by
  induction gs with
  | nil => simp [List.lookup] at hp
  | cons p t ih =>
      show ((if p.1 = g then (g, ws) else p) ::
        Yasno.setGroup t g ws).lookup g = some ws
      by_cases hpg : p.1 = g
      · rw [if_pos hpg]
        simp [List.lookup]
      · rw [if_neg hpg]
        have hne : (g == p.1) = false := by
          cases h : g == p.1 with
          | false => rfl
          | true => exact absurd (eq_of_beq h).symm hpg
        simp only [List.lookup, hne]
        apply ih
        revert hp
        simp only [List.lookup, hne]
        exact id

theorem aux_lookup_set_other {gs : Yasno.Groups} {g g' : Group}
    (ws : List Yasno.Slot) (hne : g' ≠ g) :
    (Yasno.setGroup gs g ws).lookup g' = gs.lookup g' := by
  induction gs with
  | nil => rfl
  | cons p t ih =>
      show ((if p.1 = g then (g, ws) else p) ::
        Yasno.setGroup t g ws).lookup g' = (p :: t).lookup g'
      by_cases hpg : p.1 = g
      · rw [if_pos hpg]
        have h1 : (g' == g) = false := by
          cases h : g' == g with
          | false => rfl
          | true => exact absurd (eq_of_beq h) hne
        have h2 : (g' == p.1) = false := by rw [hpg]; exact h1
        simp only [List.lookup, h1, h2, ih]
      · rw [if_neg hpg]
        simp only [List.lookup]
        cases h : g' == p.1 <;> simp [h, ih]

theorem aux_lookup_ensure_other {gs : Yasno.Groups} {g g' : Group}
    (hne : g' ≠ g) :
    (Yasno.ensureGroup gs g).lookup g' = gs.lookup g' := by
  unfold Yasno.ensureGroup
  by_cases hp : (gs.lookup g).isSome
  · rw [if_pos hp]
  · rw [if_neg hp, aux_lookup_append]
    cases hl : gs.lookup g' with
    | some ws => rfl
    | none =>
        have h1 : (g' == g) = false := by
          cases h : g' == g with
          | false => rfl
          | true => exact absurd (eq_of_beq h) hne
        simp [List.lookup, h1]

theorem aux_getGroup_ensure (gs : Yasno.Groups) (g : Group) :
    Yasno.getGroup (Yasno.ensureGroup gs g) g = Yasno.getGroup gs g := by
  unfold Yasno.ensureGroup Yasno.getGroup
  by_cases hp : (gs.lookup g).isSome
  · rw [if_pos hp]
  · rw [if_neg hp, aux_lookup_append]
    cases hl : gs.lookup g with
    | some ws => rw [hl] at hp
    | none => simp [List.lookup]

theorem aux_keys_setGroup (gs : Yasno.Groups) (g : Group)
    (ws : List Yasno.Slot) :
    (Yasno.setGroup gs g ws).map Prod.fst = gs.map Prod.fst := by
  induction gs with
  | nil => rfl
  | cons p t ih =>
      show (((if p.1 = g then (g, ws) else p) ::
        Yasno.setGroup t g ws).map Prod.fst) = _
      by_cases hpg : p.1 = g
      · rw [if_pos hpg]
        simp [ih, hpg]
      · rw [if_neg hpg]
        simp [ih]

theorem aux_mem_of_lookup_nodup {gs : Yasno.Groups}
    (hnd : (gs.map Prod.fst).Nodup) {p : Group × List Yasno.Slot}
    (hp : p ∈ gs) : gs.lookup p.1 = some p.2 := by
  induction gs with
  | nil => cases hp
  | cons q t ih =>
      rcases List.mem_cons.mp hp with hq | hmem
      · subst hq
        simp [List.lookup]
      · have hne : p.1 ≠ q.1 := by
          intro hcontr
          have : q.1 ∈ t.map Prod.fst :=
            hcontr ▸ List.mem_map.mpr ⟨p, hmem, rfl⟩
          exact (List.nodup_cons.mp hnd).1 this
        have h1 : (p.1 == q.1) = false := by
          cases h : p.1 == q.1 with
          | false => rfl
          | true => exact absurd (eq_of_beq h) hne
        simp only [List.lookup, h1]
        exact ih (List.nodup_cons.mp hnd).2 hmem

/-- The windows a well-formed day contributes: stamped with the day's
date, contained in the day's 24-hour span, and internally ordered. -/
theorem aux_get_slots_good {d : Yasno.Day} (hwf : Yasno.WFDay d) :
    (∀ w ∈ d.get_slots,
      Yasno.ResolvedSlot w ∧
      d.date ≤ Yasno.wStart w ∧ Yasno.wEnd w ≤ d.date + 1440) ∧
    (d.get_slots).Pairwise (fun a b => Yasno.wEnd a ≤ Yasno.wStart b) := by
  obtain ⟨hsome, hsched⟩ := hwf
  cases hstt : d.status with
  | none => rw [hstt] at hsome; simp at hsome
  | some stt =>
      cases stt with
      | waitingForSchedule =>
          have hnil : d.get_slots = [] := by
            unfold Yasno.Day.get_slots
            rw [hstt]
            exact aux_filter_waiting_nil d.date (some .waitingForSchedule) rfl
              d.slots
          rw [hnil]
          exact ⟨fun w hw => absurd hw (List.not_mem_nil w), List.Pairwise.nil⟩
      | emergencyShutdowns =>
          have hone : d.get_slots =
              [{ start := 0, «end» := 1440, date_start := some d.date,
                 date_end := some d.date,
                 day_status := some .emergencyShutdowns }] := by
            unfold Yasno.Day.get_slots
            rw [hstt]
            rfl
          rw [hone]
          refine ⟨?_, List.pairwise_singleton _ _⟩
          intro w hw
          rcases List.mem_singleton.mp hw with rfl
          refine ⟨⟨rfl, rfl⟩, ?_, ?_⟩
          · show d.date ≤ d.date + (0 : Int)
            omega
          · show d.date + (1440 : Int) ≤ d.date + 1440
            omega
      | scheduleApplies =>
          obtain ⟨hbounds, hpw⟩ := hsched hstt
          have hform : d.get_slots =
              (d.slots.map fun s =>
                { s with date_start := some d.date, date_end := some d.date,
                         day_status := d.status }).filter
                (fun s => s.type == .definite
                  && s.day_status != some .waitingForSchedule) := by
            unfold Yasno.Day.get_slots
            rw [hstt]
          rw [hform]
          constructor
          · intro w hw
            have hw1 : w ∈ d.slots.map fun s =>
                { s with date_start := some d.date, date_end := some d.date,
                         day_status := d.status } := List.mem_of_mem_filter hw
            obtain ⟨s, hs, rfl⟩ := List.mem_map.mp hw1
            obtain ⟨h0, h1, h2⟩ := hbounds s hs
            refine ⟨⟨rfl, rfl⟩, ?_, ?_⟩
            · show d.date ≤ d.date + s.start
              omega
            · show d.date + s.«end» ≤ d.date + 1440
              omega
          · apply List.Pairwise.sublist (List.filter_sublist _)
            rw [List.pairwise_map]
            refine List.Pairwise.imp ?_ hpw
            intro a b hab
            show d.date + a.«end» ≤ d.date + b.start
            omega

/-- The boundary-merge step preserves resolution, pairwise ordering and
the day-span upper bound, provided the accumulated windows all end by
the new day's start. -/
theorem aux_appendDaySlots_good {cur ds out : List Yasno.Slot} {D : Int}
    (hres : ∀ w ∈ cur, Yasno.ResolvedSlot w)
    (hpw : cur.Pairwise (fun a b => Yasno.wEnd a ≤ Yasno.wStart b))
    (hub : ∀ w ∈ cur, Yasno.wEnd w ≤ D)
    (hdgood : ∀ w ∈ ds, Yasno.ResolvedSlot w ∧
      D ≤ Yasno.wStart w ∧ Yasno.wEnd w ≤ D + 1440)
    (hdpw : ds.Pairwise (fun a b => Yasno.wEnd a ≤ Yasno.wStart b))
    (h : Yasno.appendDaySlots cur ds = .ok out) :
    (∀ w ∈ out, Yasno.ResolvedSlot w) ∧
    out.Pairwise (fun a b => Yasno.wEnd a ≤ Yasno.wStart b) ∧
    (∀ w ∈ out, Yasno.wEnd w ≤ D + 1440) := by
  rcases aux_appendDaySlots_cases h with hap | ⟨last, next, rest, hl, hds, _, hout⟩
  · subst hap
    refine ⟨?_, ?_, ?_⟩
    · intro w hw
      rcases List.mem_append.mp hw with h1 | h2
      · exact hres w h1
      · exact (hdgood w h2).1
    · rw [List.pairwise_append]
      exact ⟨hpw, hdpw, fun a ha b hb =>
        le_trans (hub a ha) (hdgood b hb).2.1⟩
    · intro w hw
      rcases List.mem_append.mp hw with h1 | h2
      · have := hub w h1
        omega
      · exact (hdgood w h2).2.2
  · subst hds
    subst hout
    have hlast_mem : last ∈ cur := aux_getLast?_mem hl
    have hdecomp : cur.dropLast ++ [last] = cur :=
      List.dropLast_append_getLast? last (by rw [hl]; rfl)
    rw [← hdecomp] at hpw
    obtain ⟨hpre, _, hcross⟩ := List.pairwise_append.mp hpw
    obtain ⟨hnr, hrestpw⟩ := List.pairwise_cons.mp hdpw
    have hnext_mem : next ∈ next :: rest := by simp
    have hjs : Yasno.wStart (Yasno.joinedSlot last next) = Yasno.wStart last := rfl
    have hje : Yasno.wEnd (Yasno.joinedSlot last next) = Yasno.wEnd next := rfl
    refine ⟨?_, ?_, ?_⟩
    · intro w hw
      rcases List.mem_append.mp hw with h1 | h2
      · exact hres w (List.dropLast_subset cur h1)
      · rcases List.mem_cons.mp h2 with rfl | h3
        · exact ⟨(hres last hlast_mem).1, (hdgood next hnext_mem).1.2⟩
        · exact (hdgood w (List.mem_cons_of_mem _ h3)).1
    · rw [List.pairwise_append]
      refine ⟨hpre, ?_, ?_⟩
      · rw [List.pairwise_cons]
        refine ⟨?_, hrestpw⟩
        intro b hb
        rw [hje]
        exact hnr b hb
      · intro a ha b hb
        rcases List.mem_cons.mp hb with rfl | h3
        · rw [hjs]
          exact hcross a ha last (by simp)
        · have h4 := hub a (List.dropLast_subset cur ha)
          have h5 := (hdgood b (List.mem_cons_of_mem _ h3)).2.1
          omega
    · intro w hw
      rcases List.mem_append.mp hw with h1 | h2
      · have := hub w (List.dropLast_subset cur h1)
        omega
      · rcases List.mem_cons.mp h2 with rfl | h3
        · rw [hje]
          exact (hdgood next hnext_mem).2.2
        · exact (hdgood w (List.mem_cons_of_mem _ h3)).2.2

theorem aux_lookup_ensure_self_isSome (gs : Yasno.Groups) (g : Group) :
    ((Yasno.ensureGroup gs g).lookup g).isSome :=
  (aux_lookup_isSome_ensure gs g g).mpr (Or.inr rfl)

/-- Processing one day rewrites only the group's own list, through the
boundary-merge step. -/
theorem aux_processGroupDay_getGroup {gs gs' : Yasno.Groups} {g : Group}
    {d : Yasno.Day} (h : Yasno.processGroupDay gs g d = .ok gs') :
    Yasno.appendDaySlots (Yasno.getGroup gs g) d.get_slots =
      .ok (Yasno.getGroup gs' g) ∧
    ∀ g', g' ≠ g → gs'.lookup g' = gs.lookup g' := by
  unfold Yasno.processGroupDay at h
  obtain ⟨ws, happ, hset⟩ := except_bind_ok h
  have hgs' : gs' = Yasno.setGroup (Yasno.ensureGroup gs g) g ws := by
    cases hset
    rfl
  constructor
  · rw [aux_getGroup_ensure] at happ
    have hlk : (Yasno.setGroup (Yasno.ensureGroup gs g) g ws).lookup g =
        some ws := aux_lookup_set_self ws (aux_lookup_ensure_self_isSome gs g)
    have : Yasno.getGroup gs' g = ws := by
      rw [hgs']
      unfold Yasno.getGroup
      rw [hlk]
    rw [this]
    exact happ
  · intro g' hne
    rw [hgs', aux_lookup_set_other ws hne, aux_lookup_ensure_other hne]

theorem aux_keys_ensure (gs : Yasno.Groups) (g : Group) :
    (Yasno.ensureGroup gs g).map Prod.fst =
      if (gs.lookup g).isSome then gs.map Prod.fst
      else gs.map Prod.fst ++ [g] := by
  unfold Yasno.ensureGroup
  by_cases hp : (gs.lookup g).isSome
  · rw [if_pos hp, if_pos hp]
  · rw [if_neg hp, if_neg hp]
    simp

theorem aux_processGroupDay_nodup {gs gs' : Yasno.Groups} {g : Group}
    {d : Yasno.Day} (h : Yasno.processGroupDay gs g d = .ok gs')
    (hnd : (gs.map Prod.fst).Nodup) : (gs'.map Prod.fst).Nodup := by
  unfold Yasno.processGroupDay at h
  obtain ⟨ws, _, hset⟩ := except_bind_ok h
  have hgs' : gs' = Yasno.setGroup (Yasno.ensureGroup gs g) g ws := by
    cases hset
    rfl
  rw [hgs', aux_keys_setGroup, aux_keys_ensure]
  by_cases hp : (gs.lookup g).isSome
  · rw [if_pos hp]
    exact hnd
  · rw [if_neg hp]
    have hnm : g ∉ gs.map Prod.fst := by
      intro hmem
      exact hp ((aux_lookup_isSome_iff_mem_keys g gs).mpr hmem)
    simp [List.nodup_append, hnd, hnm]

/-- The per-group day fold: starting from an ordered accumulated list
that ends before every remaining day, the fold keeps the group's list
resolved and ordered, and touches no other group. -/
theorem aux_processDays_good :
    ∀ (ds : List Yasno.Day) (gs gs' : Yasno.Groups) (g : Group),
      (∀ d ∈ ds, Yasno.WFDay d) →
      ds.Pairwise (fun d1 d2 => d1.date + 1440 ≤ d2.date) →
      (∀ w ∈ Yasno.getGroup gs g, Yasno.ResolvedSlot w) →
      (Yasno.getGroup gs g).Pairwise
        (fun a b => Yasno.wEnd a ≤ Yasno.wStart b) →
      (∀ w ∈ Yasno.getGroup gs g, ∀ d ∈ ds, Yasno.wEnd w ≤ d.date) →
      (gs.map Prod.fst).Nodup →
      Yasno.processDays g gs ds = .ok gs' →
      (∀ w ∈ Yasno.getGroup gs' g, Yasno.ResolvedSlot w) ∧
      (Yasno.getGroup gs' g).Pairwise
        (fun a b => Yasno.wEnd a ≤ Yasno.wStart b) ∧
      (∀ g', g' ≠ g → gs'.lookup g' = gs.lookup g') ∧
      (gs'.map Prod.fst).Nodup := by
  intro ds
  induction ds with
  | nil =>
      intro gs gs' g _ _ hres hpw _ hnd h
      have : gs' = gs := by
        unfold Yasno.processDays at h
        simp only [List.foldlM_nil, Except.pure, pure] at h
        cases h
        rfl
      subst this
      exact ⟨hres, hpw, fun _ _ => rfl, hnd⟩
  | cons d rest ih =>
      intro gs gs' g hwf hdates hres hpw hub hnd h
      unfold Yasno.processDays at h
      rw [List.foldlM_cons] at h
      obtain ⟨gs₁, hstep, hrest⟩ := except_bind_ok h
      obtain ⟨happ, hframe₁⟩ := aux_processGroupDay_getGroup hstep
      obtain ⟨hday, hdaypw⟩ := aux_get_slots_good (hwf d (by simp))
      obtain ⟨hres₁, hpw₁, hub₁⟩ := aux_appendDaySlots_good hres hpw
        (fun w hw => hub w hw d (by simp)) hday hdaypw happ
      obtain ⟨hdrel, hdatesr⟩ := List.pairwise_cons.mp hdates
      have hub₁' : ∀ w ∈ Yasno.getGroup gs₁ g, ∀ d' ∈ rest,
          Yasno.wEnd w ≤ d'.date := by
        intro w hw d' hd'
        have h1 := hub₁ w hw
        have h2 := hdrel d' hd'
        omega
      have hnd₁ : (gs₁.map Prod.fst).Nodup :=
        aux_processGroupDay_nodup hstep hnd
      obtain ⟨hresF, hpwF, hframe₂, hndF⟩ := ih gs₁ gs' g
        (fun d' hd' => hwf d' (by simp [hd'])) hdatesr hres₁ hpw₁ hub₁' hnd₁
        hrest
      refine ⟨hresF, hpwF, ?_, hndF⟩
      intro g' hne
      rw [hframe₂ g' hne, hframe₁ g' hne]

theorem aux_foldlM_filterMap {α γ β e : Type} (hfn : α → Option γ)
    (f : β → γ → Except e β) :
    ∀ (l : List α) (b : β),
      (l.filterMap hfn).foldlM f b =
        l.foldlM
          (fun b a =>
            match hfn a with
            | none => pure b
            | some x => f b x) b := by
  intro l
  induction l with
  | nil => intro b; rfl
  | cons a t ih =>
      intro b
      cases hfa : hfn a with
      | none =>
          rw [List.filterMap_cons_none hfa, List.foldlM_cons]
          simp only [hfa]
          rw [ih b]
          rfl
      | some x =>
          rw [List.filterMap_cons_some hfa, List.foldlM_cons, List.foldlM_cons]
          simp only [hfa]
          cases f b x with
          | error er => simp [Bind.bind, Except.bind]
          | ok b' =>
              simp only [Bind.bind, Except.bind]
              exact ih b'

/-- When the group code resolves, processing an entry is the day fold
over its present days. -/
theorem aux_processEntry_eq {gid : String} {g : Group}
    (hg : groupOfString gid = some g)
    (dm : List (Yasno.DayName × Yasno.Day)) (gs : Yasno.Groups) :
    Yasno.processEntry gs gid dm =
      Yasno.processDays g gs (Yasno.daysOf dm) := by
  unfold Yasno.processEntry Yasno.processDays Yasno.daysOf
  rw [aux_foldlM_filterMap]
  apply aux_foldlM_congr
  intro b dn _
  unfold Yasno.entryStep
  cases dm.lookup dn with
  | none => rfl
  | some day => simp [hg]

/-- An entry with an unknown group code that processed successfully
left the state untouched. -/
theorem aux_processEntry_none_ok {gid : String}
    {dm : List (Yasno.DayName × Yasno.Day)} {gs gs' : Yasno.Groups}
    (hg : groupOfString gid = none)
    (h : Yasno.processEntry gs gid dm = .ok gs') : gs' = gs := by
  unfold Yasno.processEntry at h
  refine foldlM_ok_invariant (fun b => b = gs) (Yasno.entryStep gid dm)
    ?_ Yasno.dayNameOrder gs gs' rfl h
  intro b dn b' hb hb'
  revert hb'
  unfold Yasno.entryStep
  cases dm.lookup dn with
  | none =>
      intro hb'
      cases hb'
      exact hb
  | some day =>
      rw [hg]
      intro hb'
      cases hb'

/-- The payload fold keeps every group's window list resolved and
ordered, provided the group codes are distinct keys and every day map
is well-formed. -/
theorem aux_payload_good :
    ∀ (payload : List (String × List (Yasno.DayName × Yasno.Day)))
      (gs m : Yasno.Groups),
      payload.Pairwise (fun a b => a.1 ≠ b.1) →
      (∀ e ∈ payload, Yasno.WFDayMap e.2) →
      (∀ g ws, gs.lookup g = some ws →
        (∀ w ∈ ws, Yasno.ResolvedSlot w) ∧
        ws.Pairwise (fun a b => Yasno.wEnd a ≤ Yasno.wStart b)) →
      (∀ e ∈ payload, ∀ g, groupOfString e.1 = some g →
        gs.lookup g = none) →
      (gs.map Prod.fst).Nodup →
      payload.foldlM (fun gs e => Yasno.processEntry gs e.1 e.2) gs = .ok m →
      (∀ g ws, m.lookup g = some ws →
        (∀ w ∈ ws, Yasno.ResolvedSlot w) ∧
        ws.Pairwise (fun a b => Yasno.wEnd a ≤ Yasno.wStart b)) ∧
      (m.map Prod.fst).Nodup := by
  intro payload
  induction payload with
  | nil =>
      intro gs m _ _ hIL _ hnd h
      simp only [List.foldlM_nil, Except.pure, pure] at h
      cases h
      exact ⟨hIL, hnd⟩
  | cons e pl ih =>
      intro gs m hdist hwf hIL hfresh hnd h
      rw [List.foldlM_cons] at h
      obtain ⟨gs₁, hstep, hfold⟩ := except_bind_ok h
      obtain ⟨hhead, hdist'⟩ := List.pairwise_cons.mp hdist
      have hwf' : ∀ e' ∈ pl, Yasno.WFDayMap e'.2 :=
        fun e' he' => hwf e' (by simp [he'])
      cases hg : groupOfString e.1 with
      | none =>
          have hgs₁ : gs₁ = gs := aux_processEntry_none_ok hg hstep
          rw [hgs₁] at hfold
          exact ih gs m hdist' hwf' hIL
            (fun e' he' g' hg' => hfresh e' (by simp [he']) g' hg') hnd hfold
      | some g =>
          rw [aux_processEntry_eq hg] at hstep
          have hfresh_e : gs.lookup g = none := hfresh e (by simp) g hg
          have hget : Yasno.getGroup gs g = [] := by
            unfold Yasno.getGroup
            rw [hfresh_e]
          obtain ⟨hwfd, hdates⟩ := hwf e (by simp)
          obtain ⟨hresG, hpwG, hframe, hnd₁⟩ :=
            aux_processDays_good (Yasno.daysOf e.2) gs gs₁ g hwfd hdates
              (by rw [hget]; intro w hw; cases hw)
              (by rw [hget]; exact List.Pairwise.nil)
              (by rw [hget]; intro w hw; cases hw) hnd hstep
          have hIL₁ : ∀ g' ws, gs₁.lookup g' = some ws →
              (∀ w ∈ ws, Yasno.ResolvedSlot w) ∧
              ws.Pairwise (fun a b => Yasno.wEnd a ≤ Yasno.wStart b) := by
            intro g' ws hlk
            by_cases hgg : g' = g
            · subst hgg
              have : Yasno.getGroup gs₁ g' = ws := by
                unfold Yasno.getGroup
                rw [hlk]
              rw [← this]
              exact ⟨hresG, hpwG⟩
            · rw [hframe g' hgg] at hlk
              exact hIL g' ws hlk
          have hfresh₁ : ∀ e' ∈ pl, ∀ g'', groupOfString e'.1 = some g'' →
              gs₁.lookup g'' = none := by
            intro e' he' g'' hg''
            have hne : g'' ≠ g := by
              intro hcontr
              subst hcontr
              have : e'.1 = e.1 := aux_groupOfString_inj hg'' hg
              exact hhead e' he' this.symm
            rw [hframe g'' hne]
            exact hfresh e' (by simp [he']) g'' hg''
          exact ih gs₁ m hdist' hwf' hIL₁ hfresh₁ hnd₁ hfold

/-- C7 (amended): for a well-formed payload — distinct group codes,
every present day carrying a status, `SCHEDULE_APPLIES` slot lists
in-bounds and internally ordered, and reference dates advancing by at
least one day in iteration order — every group's output window sequence
is resolved and satisfies `window[i].end ≤ window[i+1].start`
(non-strict).  Equality does occur: touching same-day slots stay
unmerged, and cross-status boundaries are never merged, so the claimed
strict inequality and maximal merging fail (see the counterexample). -/
theorem C7_ordering_amended :
    ∀ (payload : List (String × List (Yasno.DayName × Yasno.Day)))
      (m : Yasno.Groups),
      Yasno.WFPayload payload →
      Yasno.planned_outages payload = .ok m →
      ∀ p ∈ m, (∀ w ∈ p.2, Yasno.ResolvedSlot w) ∧
        p.2.Pairwise (fun a b => Yasno.wEnd a ≤ Yasno.wStart b) := by
  intro payload m hwfp hok
  obtain ⟨hdist, hwf⟩ := hwfp
  unfold Yasno.planned_outages at hok
  obtain ⟨hIL, hnd⟩ := aux_payload_good payload [] m hdist hwf
    (fun g ws hcontr => by cases hcontr) (fun e _ g _ => rfl) (by simp) hok
  intro p hp
  exact hIL p.1 p.2 (aux_mem_of_lookup_nodup hnd hp)

/-- C7 (witness): the 23:30-24:00 / 00:00-00:30 payload is well-formed
and its single (merged) output window list is ordered. -/
theorem C7_ordering_amended_witness :
    ([({ start := 1410, «end» := 30, date_start := some 0,
         date_end := some 1440,
         day_status := some .scheduleApplies } : Yasno.Slot)]).Pairwise
      (fun a b => Yasno.wEnd a ≤ Yasno.wStart b) :=
  (C7_ordering_amended
    [("1.1",
      [(.today, { slots := [{ start := 1410, «end» := 1440 }], date := 0,
                  status := some .scheduleApplies }),
       (.tomorrow, { slots := [{ start := 0, «end» := 30 }], date := 1440,
                     status := some .scheduleApplies })])]
    [(.g1_1,
      [{ start := 1410, «end» := 30, date_start := some 0,
         date_end := some 1440, day_status := some .scheduleApplies }])]
    (by unfold Yasno.WFPayload Yasno.WFDayMap Yasno.WFDay Yasno.WFSlot
        decide)
    rfl
    (.g1_1,
      [{ start := 1410, «end» := 30, date_start := some 0,
         date_end := some 1440, day_status := some .scheduleApplies }])
    (by simp)).2

end ESvitlo
